import Mathlib

/-! Bounded random integers and Fisher-Yates shuffle (`2016/10/10/shuffle.cpp`).

A shallow embedding of the two bounded samplers `pcg32_random_bounded` and
`pcg32_random_bounded_divisionless`, of the two shuffles built on them and of
the timing loop of `BEST_TIME`, followed by the properties proved about them.

Conventions of the embedding.

* `uint32_t` and `uint64_t` values are natural numbers; every operation that can
  wrap is written with an explicit `% 2 ^ 32` or `% 2 ^ 64`.
* The generator `pcg32_random` lives in `pcg.h`, which is not part of the
  sources.  It is a parameter of the embedding: a run receives the list `ws` of
  the words that the successive calls of `pcg32_random()` return, first call
  first.  A call takes the head of the list.  A run that asks for a word when
  the list is empty stops with `Fault.starved`: it has not returned within the
  words it was given.
* A C++ operation with undefined behaviour (`%` by zero, an access outside the
  array) stops the run with the corresponding `Fault`.
-/

namespace Shuffle

/-- Ways in which a run stops without returning. -/
inductive Fault where
  /-- an unsigned `%` whose divisor is zero -/
  | div_by_zero
  /-- an array access at a position that is not below the length -/
  | out_of_bounds
  /-- the supplied words ended while the run was asking for one more -/
  | starved
  deriving DecidableEq, Repr

/-- A list of generator outputs is well formed when each word fits 32 bits,
as the return type `uint32_t` of `pcg32_random` requires. -/
def Words32 (ws : List Nat) : Prop := ∀ w ∈ ws, w < 2 ^ 32

instance (ws : List Nat) : Decidable (Words32 ws) := by
  unfold Words32; infer_instance

/-! ## `pcg32_random_bounded` (lines 26-33) -/

/-- Line 27, `(~bound + 1) % bound` on `uint32_t`: `~bound` is
`2 ^ 32 - 1 - bound`, the addition wraps.  Only evaluated for `bound ≠ 0`. -/
def threshold_bounded (bound : Nat) : Nat :=
  ((2 ^ 32 - 1 - bound + 1) % 2 ^ 32) % bound

/-- Lines 28-32, the loop `for (;;) { r = pcg32_random(); if (r >= threshold) return r % bound; }`.
The result is the returned value together with the words not yet drawn. -/
def bounded_loop (bound threshold : Nat) : List Nat → Except Fault (Nat × List Nat)
  | [] => .error .starved
  | r :: rest =>
    if r ≥ threshold then .ok (r % bound, rest)
    else bounded_loop bound threshold rest

/-- Lines 26-33.  The first operation executed is `% bound`, which is undefined
for `bound = 0`. -/
def pcg32_random_bounded (bound : Nat) (ws : List Nat) : Except Fault (Nat × List Nat) :=
  if bound = 0 then .error .div_by_zero
  else bounded_loop bound (threshold_bounded bound) ws

/-! ## `pcg32_random_bounded_divisionless` (lines 37-53) -/

/-- Line 45, `-range % range` on `uint32_t`: unary minus wraps modulo `2 ^ 32`.
Only evaluated for `range ≠ 0`. -/
def threshold_divisionless (range : Nat) : Nat :=
  ((2 ^ 32 - range) % 2 ^ 32) % range

/-- Lines 46-50, `while (leftover < threshold) { ... }`, where `leftover` is
always the low 32 bits of the current `multiresult`.  Returns the final
`multiresult` and the words not yet drawn. -/
def divisionless_loop (range threshold : Nat) : Nat → List Nat → Except Fault (Nat × List Nat)
  | multiresult, [] =>
    if multiresult % 2 ^ 32 < threshold then .error .starved
    else .ok (multiresult, [])
  | multiresult, r :: rest =>
    if multiresult % 2 ^ 32 < threshold then
      divisionless_loop range threshold ((r * range) % 2 ^ 64) rest
    else .ok (multiresult, r :: rest)

/-- Lines 37-53.  `multiresult` is a `uint64_t` product, `leftover` its low
32 bits, the returned value `multiresult >> 32` converted to `uint32_t`. -/
def pcg32_random_bounded_divisionless (range : Nat) (ws : List Nat) :
    Except Fault (Nat × List Nat) :=
  match ws with
  | [] => .error .starved
  | random32bit :: rest =>
    let multiresult := (random32bit * range) % 2 ^ 64
    let leftover := multiresult % 2 ^ 32
    if leftover < range then
      if range = 0 then .error .div_by_zero
      else
        match divisionless_loop range (threshold_divisionless range) multiresult rest with
        | .error e => .error e
        | .ok (m, rest1) => .ok ((m / 2 ^ 32) % 2 ^ 32, rest1)
    else .ok ((multiresult / 2 ^ 32) % 2 ^ 32, rest)

/-! ## The shuffles (lines 122-138) -/

/-- The exchange performed by `std::swap(storage[a], storage[b])` when both
positions exist; the list is returned as it is otherwise. -/
def swap_elems {α : Type} (storage : List α) (a b : Nat) : List α :=
  match storage[a]?, storage[b]? with
  | some x, some y => (storage.set a y).set b x
  | _, _ => storage

/-- Lines 127 and 136, `std::swap(storage[a], storage[b])`: both accesses must
be inside the array. -/
def swap {α : Type} (storage : List α) (a b : Nat) : Except Fault (List α) :=
  if a < storage.length ∧ b < storage.length then .ok (swap_elems storage a b)
  else .error .out_of_bounds

/-- Lines 125-128, `for (i = size; i > 1; i--)`, started at counter `i`. -/
def shuffle_pcg_loop {α : Type} : Nat → List α → List Nat → Except Fault (List α × List Nat)
  | i + 2, storage, ws =>
    match pcg32_random_bounded (i + 2) ws with
    | .error e => .error e
    | .ok (nextpos, ws1) =>
      match swap storage (i + 2 - 1) nextpos with
      | .error e => .error e
      | .ok storage1 => shuffle_pcg_loop (i + 1) storage1 ws1
  | _, storage, ws => .ok (storage, ws)

/-- Lines 122-129. -/
def shuffle_pcg {α : Type} (storage : List α) (size : Nat) (ws : List Nat) :
    Except Fault (List α × List Nat) :=
  shuffle_pcg_loop size storage ws

/-- Lines 134-137, `for (i = size; i > 1; i--)`, started at counter `i`. -/
def shuffle_pcg_divisionless_loop {α : Type} :
    Nat → List α → List Nat → Except Fault (List α × List Nat)
  | i + 2, storage, ws =>
    match pcg32_random_bounded_divisionless (i + 2) ws with
    | .error e => .error e
    | .ok (nextpos, ws1) =>
      match swap storage (i + 2 - 1) nextpos with
      | .error e => .error e
      | .ok storage1 => shuffle_pcg_divisionless_loop (i + 1) storage1 ws1
  | _, storage, ws => .ok (storage, ws)

/-- Lines 131-138. -/
def shuffle_pcg_divisionless {α : Type} (storage : List α) (size : Nat) (ws : List Nat) :
    Except Fault (List α × List Nat) :=
  shuffle_pcg_divisionless_loop size storage ws

/-! ## Auxiliary notions used in the statements -/

/-- The value `pcg32_random_bounded_divisionless` returns when it accepts the
word `r`: `multiresult >> 32` as a `uint32_t`. -/
def high32 (r range : Nat) : Nat := ((r * range) % 2 ^ 64 / 2 ^ 32) % 2 ^ 32

/-- Number of 32-bit words that pass the test `r >= threshold` of
`pcg32_random_bounded` (line 30). -/
def accepted_bounded (bound : Nat) : Nat :=
  ((Finset.range (2 ^ 32)).filter (fun r => r ≥ threshold_bounded bound)).card

/-- Number of 32-bit words whose `leftover`, the low 32 bits of `r * range`,
is not below the threshold of `pcg32_random_bounded_divisionless` (line 46). -/
def accepted_divisionless (range : Nat) : Nat :=
  ((Finset.range (2 ^ 32)).filter
    (fun r => (r * range) % 2 ^ 32 ≥ threshold_divisionless range)).card

/-- The loop of lines 125-128 and 134-137 with the sampler replaced by its
results: `js` lists the values `nextpos` returned by the successive sampler
calls, the call with bound `size` first. -/
def fisher_yates {α : Type} : Nat → List α → List Nat → List α
  | i + 2, storage, j :: js => fisher_yates (i + 1) (swap_elems storage (i + 2 - 1) j) js
  | _, storage, _ => storage

/-- The tuples `(j_n, j_(n-1), ..., j_2)` of sampler results that a shuffle of
size `n` can meet: one result per bound `i = n, ..., 2`, each with `j_i < i`. -/
def draws_in_range : Nat → List Nat → Prop
  | i + 2, j :: js => j < i + 2 ∧ draws_in_range (i + 1) js
  | _ + 2, [] => False
  | _, js => js = []

instance decidable_draws_in_range : (i : Nat) → (js : List Nat) → Decidable (draws_in_range i js)
  | 0, js => by unfold draws_in_range; infer_instance
  | 1, js => by unfold draws_in_range; infer_instance
  | _ + 2, [] => by unfold draws_in_range; infer_instance
  | i + 2, j :: js => by
    unfold draws_in_range
    exact @instDecidableAnd _ _ _ (decidable_draws_in_range (i + 1) js)

/-! ## `BEST_TIME` (lines 95-115) -/

/-- The two macro arguments that an iteration of `BEST_TIME` executes. -/
inductive Executed where
  /-- the argument `pre` (line 102) -/
  | pre
  /-- the argument `test` (line 105) -/
  | test
  deriving DecidableEq, Repr

/-- Line 107, `cycles_diff = (cycles_final - cycles_start)` on `uint64_t`.  The
time-stamp counter is hardware: `readings i` is the pair of values that
`RDTSC_START` and `RDTSC_FINAL` store into `cycles_start` and `cycles_final`
in iteration `i`, each kept to 64 bits. -/
def cycles_diff (readings : Nat → Nat × Nat) (i : Nat) : Nat :=
  ((readings i).2 % 2 ^ 64 + 2 ^ 64 - (readings i).1 % 2 ^ 64) % 2 ^ 64

/-- Lines 101-109, `for (int i = 0; i < repeat; i++)`, with `remaining`
iterations still to run, the counter at `i` and the current `min_diff`; `log`
records the executions of `pre` and `test` so far. -/
def BEST_TIME_loop (readings : Nat → Nat × Nat) :
    Nat → Nat → Nat → List Executed → Nat × List Executed
  | 0, _, min_diff, log => (min_diff, log)
  | remaining + 1, i, min_diff, log =>
    BEST_TIME_loop readings remaining (i + 1)
      (if cycles_diff readings i < min_diff then cycles_diff readings i else min_diff)
      (log ++ [Executed.pre, Executed.test])

/-- Lines 99-109 of `BEST_TIME(test, pre, repeat, size)`: `min_diff` starts at
`(uint64_t)-1`; the `int` argument `repeat` (here `repeats`) gives
`repeats.toNat` iterations.  Returns the `min_diff` that line 111 divides by
`size`, and the record of executions. -/
def BEST_TIME (readings : Nat → Nat × Nat) (repeats : Int) : Nat × List Executed :=
  BEST_TIME_loop readings repeats.toNat 0 (2 ^ 64 - 1) []

/-! ## Reference definitions, written from the specification -/

/-- Reference for `pcg32_random_bounded`, after section 4.1 of the
specification: with `threshold = 2^32 mod bound`, words below `threshold` are
discarded; the first word `r ≥ threshold` gives the result `r mod bound`. -/
def pcg32_random_bounded_reference (bound : Nat) (ws : List Nat) :
    Except Fault (Nat × List Nat) :=
  match ws.dropWhile (fun w => decide (w < 2 ^ 32 % bound)) with
  | [] => .error .starved
  | r :: rest => .ok (r % bound, rest)

/-- Reference rejection loop for the multiply-shift sampler: draw `r`, redraw
while the low 32 bits of `r * range` are below `threshold`, then return the
high 32 bits of the product. -/
def plain_rejection_loop (range threshold : Nat) : List Nat → Except Fault (Nat × List Nat)
  | [] => .error .starved
  | r :: rest =>
    if (r * range) % 2 ^ 64 % 2 ^ 32 < threshold then plain_rejection_loop range threshold rest
    else .ok (((r * range) % 2 ^ 64 / 2 ^ 32) % 2 ^ 32, rest)

/-- Reference for `pcg32_random_bounded_divisionless`: the plain rejection loop
with `threshold = 2^32 mod range` computed up front. -/
def pcg32_random_bounded_divisionless_reference (range : Nat) (ws : List Nat) :
    Except Fault (Nat × List Nat) :=
  plain_rejection_loop range (2 ^ 32 % range) ws

/-! ## The shuffles with a record of their steps -/

/-- One iteration of a shuffle loop: the argument `bound` passed to the sampler,
and the two positions `pos` (that is `i - 1`) and `nextpos` (the sampler result)
handed to `std::swap`. -/
structure SwapStep where
  bound : Nat
  pos : Nat
  nextpos : Nat
  deriving DecidableEq, Repr

/-- Lines 125-128 as in `shuffle_pcg_loop`, returning in addition the record of
the iterations executed, first iteration first. -/
def shuffle_pcg_loop_traced {α : Type} :
    Nat → List α → List Nat → Except Fault (List α × List Nat × List SwapStep)
  | i + 2, storage, ws =>
    match pcg32_random_bounded (i + 2) ws with
    | .error e => .error e
    | .ok (nextpos, ws1) =>
      match swap storage (i + 2 - 1) nextpos with
      | .error e => .error e
      | .ok storage1 =>
        match shuffle_pcg_loop_traced (i + 1) storage1 ws1 with
        | .error e => .error e
        | .ok (out, rest, steps) => .ok (out, rest, ⟨i + 2, i + 2 - 1, nextpos⟩ :: steps)
  | _, storage, ws => .ok (storage, ws, [])

/-- Lines 134-137 as in `shuffle_pcg_divisionless_loop`, returning in addition
the record of the iterations executed, first iteration first. -/
def shuffle_pcg_divisionless_loop_traced {α : Type} :
    Nat → List α → List Nat → Except Fault (List α × List Nat × List SwapStep)
  | i + 2, storage, ws =>
    match pcg32_random_bounded_divisionless (i + 2) ws with
    | .error e => .error e
    | .ok (nextpos, ws1) =>
      match swap storage (i + 2 - 1) nextpos with
      | .error e => .error e
      | .ok storage1 =>
        match shuffle_pcg_divisionless_loop_traced (i + 1) storage1 ws1 with
        | .error e => .error e
        | .ok (out, rest, steps) => .ok (out, rest, ⟨i + 2, i + 2 - 1, nextpos⟩ :: steps)
  | _, storage, ws => .ok (storage, ws, [])

/-- Forgets the record of steps of a traced run. -/
def erase_steps {α : Type} :
    Except Fault (List α × List Nat × List SwapStep) → Except Fault (List α × List Nat)
  | .error e => .error e
  | .ok (out, rest, _) => .ok (out, rest)

/-- Number of 32-bit words `r` for which the test `leftover < range` of line 44
holds, `leftover` being the low 32 bits of `r * range`: the words that send
`pcg32_random_bounded_divisionless` into its correction branch when drawn
first. -/
def correction_words (range : Nat) : Nat :=
  ((Finset.range (2 ^ 32)).filter (fun r => (r * range) % 2 ^ 32 < range)).card

/-! ## Thresholds -/

theorem threshold_bounded_eq (bound : Nat) (h1 : 1 ≤ bound) (h2 : bound ≤ 2 ^ 32 - 1) :
    threshold_bounded bound = 2 ^ 32 % bound := by
  unfold threshold_bounded
  have e : (2 ^ 32 - 1 - bound + 1) % 2 ^ 32 = 2 ^ 32 - bound := by omega
  rw [e]
  have hle : bound ≤ 2 ^ 32 := by omega
  conv_rhs => rw [← Nat.sub_add_cancel hle]
  rw [Nat.add_mod_right]

theorem threshold_divisionless_eq (range : Nat) (h1 : 1 ≤ range) (h2 : range ≤ 2 ^ 32 - 1) :
    threshold_divisionless range = 2 ^ 32 % range := by
  unfold threshold_divisionless
  have e : (2 ^ 32 - range) % 2 ^ 32 = 2 ^ 32 - range := by omega
  rw [e]
  have hle : range ≤ 2 ^ 32 := by omega
  conv_rhs => rw [← Nat.sub_add_cancel hle]
  rw [Nat.add_mod_right]

/-! ## The rejection loops, read off the word list -/

theorem bounded_loop_ok (bound threshold : Nat) (ws : List Nat) (v : Nat) (rest : List Nat)
    (h : bounded_loop bound threshold ws = .ok (v, rest)) :
    ∃ pre r, ws = pre ++ r :: rest ∧ (∀ w ∈ pre, w < threshold) ∧ threshold ≤ r ∧
      v = r % bound := by
  induction ws with
  | nil => simp [bounded_loop] at h
  | cons r tl ih =>
    unfold bounded_loop at h
    by_cases hr : r ≥ threshold
    · rw [if_pos hr] at h
      injection h with h
      injection h with hv hrest
      exact ⟨[], r, by simp [hrest], by simp, hr, hv.symm⟩
    · rw [if_neg hr] at h
      obtain ⟨pre, r1, hws, hpre, hr1, hv⟩ := ih h
      refine ⟨r :: pre, r1, by simp [hws], ?_, hr1, hv⟩
      intro w hw
      rcases List.mem_cons.mp hw with rfl | hw
      · omega
      · exact hpre w hw

theorem bounded_loop_first (bound threshold : Nat) (pre : List Nat) (r : Nat) (post : List Nat)
    (hpre : ∀ w ∈ pre, w < threshold) (hr : threshold ≤ r) :
    bounded_loop bound threshold (pre ++ r :: post) = .ok (r % bound, post) := by
  induction pre with
  | nil => simp [bounded_loop, hr]
  | cons w tl ih =>
    have hw : ¬ w ≥ threshold := by
      have := hpre w (by simp)
      omega
    simp only [List.cons_append, bounded_loop, if_neg hw]
    exact ih (fun x hx => hpre x (by simp [hx]))

theorem low32_of_mod64 (p : Nat) : (p % 2 ^ 64) % 2 ^ 32 = p % 2 ^ 32 := by omega

theorem divisionless_loop_stay (range threshold m : Nat) (ws : List Nat)
    (hm : threshold ≤ m % 2 ^ 32) :
    divisionless_loop range threshold m ws = .ok (m, ws) := by
  have hn : ¬ m % 2 ^ 32 < threshold := by omega
  cases ws with
  | nil => simp only [divisionless_loop, if_neg hn]
  | cons r tl => simp only [divisionless_loop, if_neg hn]

theorem divisionless_loop_first (range threshold : Nat) (pre : List Nat) (r : Nat)
    (post : List Nat) (m : Nat) (hm : m % 2 ^ 32 < threshold)
    (hpre : ∀ w ∈ pre, (w * range) % 2 ^ 32 < threshold)
    (hr : threshold ≤ (r * range) % 2 ^ 32) :
    divisionless_loop range threshold m (pre ++ r :: post) = .ok ((r * range) % 2 ^ 64, post) := by
  induction pre generalizing m with
  | nil =>
    simp only [List.nil_append, divisionless_loop, if_pos hm]
    exact divisionless_loop_stay range threshold _ post (by rw [low32_of_mod64]; exact hr)
  | cons w tl ih =>
    simp only [List.cons_append, divisionless_loop, if_pos hm]
    apply ih
    · rw [low32_of_mod64]
      exact hpre w (by simp)
    · exact fun x hx => hpre x (by simp [hx])

theorem divisionless_loop_ok (range threshold : Nat) (ws : List Nat) (m m1 : Nat)
    (rest : List Nat) (h : divisionless_loop range threshold m ws = .ok (m1, rest)) :
    (threshold ≤ m % 2 ^ 32 ∧ m1 = m ∧ rest = ws) ∨
    (m % 2 ^ 32 < threshold ∧ ∃ pre r, ws = pre ++ r :: rest ∧
      (∀ w ∈ pre, (w * range) % 2 ^ 32 < threshold) ∧
      threshold ≤ (r * range) % 2 ^ 32 ∧ m1 = (r * range) % 2 ^ 64) := by
  induction ws generalizing m with
  | nil =>
    unfold divisionless_loop at h
    by_cases hm : m % 2 ^ 32 < threshold
    · rw [if_pos hm] at h
      cases h
    · rw [if_neg hm] at h
      injection h with h
      injection h with h1 h2
      exact Or.inl ⟨by omega, h1.symm, h2.symm⟩
  | cons r tl ih =>
    unfold divisionless_loop at h
    by_cases hm : m % 2 ^ 32 < threshold
    · rw [if_pos hm] at h
      refine Or.inr ⟨hm, ?_⟩
      rcases ih _ h with ⟨h1, h2, h3⟩ | ⟨h1, pre, r1, h2, h3, h4, h5⟩
      · rw [low32_of_mod64] at h1
        exact ⟨[], r, by simp [h3], by simp, h1, h2⟩
      · rw [low32_of_mod64] at h1
        refine ⟨r :: pre, r1, by simp [h2], ?_, h4, h5⟩
        intro w hw
        rcases List.mem_cons.mp hw with rfl | hw
        · exact h1
        · exact h3 w hw
    · rw [if_neg hm] at h
      injection h with h
      injection h with h1 h2
      exact Or.inl ⟨by omega, h1.symm, h2.symm⟩

theorem high32_eq (r range : Nat) (hr : r < 2 ^ 32) (h1 : 1 ≤ range) (hrange : range < 2 ^ 32) :
    (r * range) % 2 ^ 64 = r * range ∧ high32 r range = r * range / 2 ^ 32 ∧
      high32 r range < range := by
  have hp : r * range ≤ (2 ^ 32 - 1) * range := Nat.mul_le_mul_right range (by omega)
  unfold high32
  generalize r * range = p at hp ⊢
  omega

/-! ## The samplers, read off the word list -/

theorem pcg32_random_bounded_ok (bound : Nat) (ws : List Nat) (v : Nat) (rest : List Nat)
    (h1 : 1 ≤ bound) (h2 : bound ≤ 2 ^ 32 - 1)
    (h : pcg32_random_bounded bound ws = .ok (v, rest)) :
    ∃ pre r, ws = pre ++ r :: rest ∧ (∀ w ∈ pre, w < 2 ^ 32 % bound) ∧ 2 ^ 32 % bound ≤ r ∧
      v = r % bound := by
  unfold pcg32_random_bounded at h
  rw [if_neg (by omega), threshold_bounded_eq bound h1 h2] at h
  exact bounded_loop_ok _ _ _ _ _ h

theorem pcg32_random_bounded_first (bound : Nat) (pre : List Nat) (r : Nat) (post : List Nat)
    (h1 : 1 ≤ bound) (h2 : bound ≤ 2 ^ 32 - 1)
    (hpre : ∀ w ∈ pre, w < 2 ^ 32 % bound) (hr : 2 ^ 32 % bound ≤ r) :
    pcg32_random_bounded bound (pre ++ r :: post) = .ok (r % bound, post) := by
  unfold pcg32_random_bounded
  rw [if_neg (by omega), threshold_bounded_eq bound h1 h2]
  exact bounded_loop_first _ _ _ _ _ hpre hr

theorem pcg32_random_bounded_divisionless_ok (range : Nat) (ws : List Nat) (v : Nat)
    (rest : List Nat) (h1 : 1 ≤ range) (h2 : range ≤ 2 ^ 32 - 1)
    (h : pcg32_random_bounded_divisionless range ws = .ok (v, rest)) :
    ∃ pre r, ws = pre ++ r :: rest ∧ (∀ w ∈ pre, (w * range) % 2 ^ 32 < 2 ^ 32 % range) ∧
      2 ^ 32 % range ≤ (r * range) % 2 ^ 32 ∧ v = high32 r range := by
  have hT : 2 ^ 32 % range < range := Nat.mod_lt _ (by omega)
  cases ws with
  | nil => simp [pcg32_random_bounded_divisionless] at h
  | cons r0 tl =>
    simp only [pcg32_random_bounded_divisionless] at h
    by_cases hl : (r0 * range) % 2 ^ 64 % 2 ^ 32 < range
    · rw [if_pos hl, if_neg (by omega), threshold_divisionless_eq range h1 h2] at h
      cases hloop : divisionless_loop range (2 ^ 32 % range) ((r0 * range) % 2 ^ 64) tl with
      | error e => rw [hloop] at h; cases h
      | ok res =>
        obtain ⟨m, rest1⟩ := res
        rw [hloop] at h
        injection h with h
        injection h with hv hrest
        subst hrest
        rcases divisionless_loop_ok _ _ _ _ _ _ hloop with ⟨a1, a2, a3⟩ | ⟨a1, pre, r, a2, a3, a4, a5⟩
        · rw [low32_of_mod64] at a1
          refine ⟨[], r0, by simp [a3], by simp, a1, ?_⟩
          rw [← hv, a2, high32]
        · rw [low32_of_mod64] at a1
          refine ⟨r0 :: pre, r, by simp [a2], ?_, a4, ?_⟩
          · intro w hw
            rcases List.mem_cons.mp hw with rfl | hw
            · exact a1
            · exact a3 w hw
          · rw [← hv, a5, high32]
    · rw [if_neg hl] at h
      injection h with h
      injection h with hv hrest
      rw [low32_of_mod64] at hl
      exact ⟨[], r0, by simp [hrest], by simp, by omega, by rw [← hv, high32]⟩

theorem pcg32_random_bounded_divisionless_first (range : Nat) (pre : List Nat) (r : Nat)
    (post : List Nat) (h1 : 1 ≤ range) (h2 : range ≤ 2 ^ 32 - 1)
    (hpre : ∀ w ∈ pre, (w * range) % 2 ^ 32 < 2 ^ 32 % range)
    (hr : 2 ^ 32 % range ≤ (r * range) % 2 ^ 32) :
    pcg32_random_bounded_divisionless range (pre ++ r :: post) = .ok (high32 r range, post) := by
  have hT : 2 ^ 32 % range < range := Nat.mod_lt _ (by omega)
  cases pre with
  | nil =>
    simp only [List.nil_append, pcg32_random_bounded_divisionless]
    by_cases hl : (r * range) % 2 ^ 64 % 2 ^ 32 < range
    · rw [if_pos hl, if_neg (by omega), threshold_divisionless_eq range h1 h2,
        divisionless_loop_stay _ _ _ _ (by rw [low32_of_mod64]; exact hr)]
      rfl
    · rw [if_neg hl]
      rfl
  | cons w tl =>
    have hw : (w * range) % 2 ^ 32 < 2 ^ 32 % range := hpre w (by simp)
    simp only [List.cons_append, pcg32_random_bounded_divisionless]
    rw [if_pos (by rw [low32_of_mod64]; omega), if_neg (by omega),
      threshold_divisionless_eq range h1 h2,
      divisionless_loop_first _ _ _ _ _ _ (by rw [low32_of_mod64]; exact hw)
        (fun x hx => hpre x (by simp [hx])) hr]
    rfl

theorem exists_first_split (p : Nat → Prop) [DecidablePred p] (ws : List Nat)
    (h : ∃ w ∈ ws, p w) :
    ∃ pre r post, ws = pre ++ r :: post ∧ (∀ w ∈ pre, ¬ p w) ∧ p r := by
  induction ws with
  | nil => simp at h
  | cons x tl ih =>
    by_cases hx : p x
    · exact ⟨[], x, tl, rfl, by simp, hx⟩
    · have h1 : ∃ w ∈ tl, p w := by
        obtain ⟨w, hw, hpw⟩ := h
        rcases List.mem_cons.mp hw with rfl | hw
        · exact absurd hpw hx
        · exact ⟨w, hw, hpw⟩
      obtain ⟨pre, r, post, e, hpre, hr⟩ := ih h1
      refine ⟨x :: pre, r, post, by simp [e], ?_, hr⟩
      intro w hw
      rcases List.mem_cons.mp hw with rfl | hw
      · exact hx
      · exact hpre w hw

/-! ## Properties of the samplers -/

/-- C1: for `1 ≤ bound ≤ 2^32 - 1` and every list of 32-bit words on which
`pcg32_random_bounded bound` returns, the returned value `v` satisfies
`0 ≤ v < bound`. -/
theorem pcg32_random_bounded_in_range (bound : Nat) (ws : List Nat) (v : Nat) (rest : List Nat)
    (h1 : 1 ≤ bound) (h2 : bound ≤ 2 ^ 32 - 1) (_hws : Words32 ws)
    (hret : pcg32_random_bounded bound ws = .ok (v, rest)) :
    0 ≤ v ∧ v < bound := by
  obtain ⟨pre, r, _, _, _, hv⟩ := pcg32_random_bounded_ok bound ws v rest h1 h2 hret
  exact ⟨Nat.zero_le v, hv ▸ Nat.mod_lt r (by omega)⟩

theorem pcg32_random_bounded_in_range_witness :
    (1 ≤ 6 ∧ 6 ≤ 2 ^ 32 - 1 ∧ Words32 [0, 3, 4, 10, 11] ∧
      pcg32_random_bounded 6 [0, 3, 4, 10, 11] = .ok (4, [10, 11])) ∧ (0 ≤ 4 ∧ 4 < 6) :=
  ⟨⟨by decide, by decide, by decide, rfl⟩,
    pcg32_random_bounded_in_range 6 [0, 3, 4, 10, 11] 4 [10, 11] (by decide) (by decide)
      (by decide) rfl⟩

/-- C2: for `1 ≤ range ≤ 2^32 - 1` and every list of 32-bit words on which
`pcg32_random_bounded_divisionless range` returns, the returned value is
`r * range / 2^32` for the last word `r` drawn, the 64-bit product `r * range`
does not wrap, and the returned value `v` satisfies `0 ≤ v < range`. -/
theorem pcg32_random_bounded_divisionless_value (range : Nat) (ws : List Nat) (v : Nat)
    (rest : List Nat) (h1 : 1 ≤ range) (h2 : range ≤ 2 ^ 32 - 1) (hws : Words32 ws)
    (hret : pcg32_random_bounded_divisionless range ws = .ok (v, rest)) :
    (∃ pre r, ws = pre ++ r :: rest ∧ (r * range) % 2 ^ 64 = r * range ∧
      v = r * range / 2 ^ 32) ∧ 0 ≤ v ∧ v < range := by
  obtain ⟨pre, r, e, _, _, hv⟩ := pcg32_random_bounded_divisionless_ok range ws v rest h1 h2 hret
  have hr : r < 2 ^ 32 := hws r (by simp [e])
  obtain ⟨a, b, c⟩ := high32_eq r range hr h1 (by omega)
  exact ⟨⟨pre, r, e, a, by rw [hv, b]⟩, Nat.zero_le v, by rw [hv]; exact c⟩

theorem pcg32_random_bounded_divisionless_value_witness :
    (1 ≤ 6 ∧ 6 ≤ 2 ^ 32 - 1 ∧ Words32 [0, 2 ^ 31 + 5, 4] ∧
      pcg32_random_bounded_divisionless 6 [0, 2 ^ 31 + 5, 4] = .ok (3, [4])) ∧
    ((∃ pre r, [0, 2 ^ 31 + 5, 4] = pre ++ r :: [4] ∧ (r * 6) % 2 ^ 64 = r * 6 ∧
      3 = r * 6 / 2 ^ 32) ∧ 0 ≤ 3 ∧ 3 < 6) :=
  ⟨⟨by decide, by decide, by decide, rfl⟩,
    pcg32_random_bounded_divisionless_value 6 [0, 2 ^ 31 + 5, 4] 3 [4] (by decide) (by decide)
      (by decide) rfl⟩

/-- C7: for `bound = 1`, whatever 32-bit word `w` the source produces next,
`pcg32_random_bounded 1` and `pcg32_random_bounded_divisionless 1` both return
exactly `0` and consume exactly that one word: the remaining words `rest` are
handed back untouched. -/
theorem samplers_bound_one (w : Nat) (rest : List Nat) (hw : w < 2 ^ 32) :
    pcg32_random_bounded 1 (w :: rest) = .ok (0, rest) ∧
    pcg32_random_bounded_divisionless 1 (w :: rest) = .ok (0, rest) := by
  constructor
  · have h := pcg32_random_bounded_first 1 [] w rest (by decide) (by decide) (by simp)
      (by simp [Nat.mod_one])
    simpa [Nat.mod_one] using h
  · have h := pcg32_random_bounded_divisionless_first 1 [] w rest (by decide) (by decide)
      (by simp) (by simp [Nat.mod_one])
    have hz : high32 w 1 = 0 := by
      unfold high32
      omega
    simpa [hz] using h

theorem samplers_bound_one_witness :
    4294967295 < 2 ^ 32 ∧
    (pcg32_random_bounded 1 (4294967295 :: [7, 8]) = .ok (0, [7, 8]) ∧
      pcg32_random_bounded_divisionless 1 (4294967295 :: [7, 8]) = .ok (0, [7, 8])) :=
  ⟨by decide, samplers_bound_one 4294967295 [7, 8] (by decide)⟩

/-- C8: for `1 ≤ bound ≤ 2^32 - 1`, the threshold of `pcg32_random_bounded`,
`(~bound + 1) % bound`, and the threshold of `pcg32_random_bounded_divisionless`,
`-range % range`, both under 32-bit wrapping arithmetic, are the same number;
it equals `2^32 mod bound` and is strictly less than `bound`. -/
theorem thresholds_agree (bound : Nat) (h1 : 1 ≤ bound) (h2 : bound ≤ 2 ^ 32 - 1) :
    threshold_bounded bound = threshold_divisionless bound ∧
    threshold_bounded bound = 2 ^ 32 % bound ∧
    threshold_bounded bound < bound := by
  rw [threshold_bounded_eq bound h1 h2, threshold_divisionless_eq bound h1 h2]
  exact ⟨rfl, rfl, Nat.mod_lt _ (by omega)⟩

theorem thresholds_agree_witness :
    (1 ≤ 4294967295 ∧ 4294967295 ≤ 2 ^ 32 - 1) ∧
    (threshold_bounded 4294967295 = threshold_divisionless 4294967295 ∧
      threshold_bounded 4294967295 = 2 ^ 32 % 4294967295 ∧
      threshold_bounded 4294967295 < 4294967295) :=
  ⟨⟨by decide, by decide⟩, thresholds_agree 4294967295 (by decide) (by decide)⟩

/-- C9: both samplers terminate.  For `1 ≤ bound ≤ 2^32 - 1` and every list of
32-bit words that contains a word passing the acceptance test of the sampler
(`r ≥ threshold` for `pcg32_random_bounded`, low 32 bits of `r * bound` at least
`threshold` for `pcg32_random_bounded_divisionless`), the list splits at the
first such word `r` as `pre ++ r :: post`, no word of `pre` passes, and the
sampler returns (the value computed from `r`) with exactly `post` left. -/
theorem samplers_terminate (bound : Nat) (ws : List Nat) (h1 : 1 ≤ bound)
    (h2 : bound ≤ 2 ^ 32 - 1) (hws : Words32 ws) :
    ((∃ w ∈ ws, w ≥ threshold_bounded bound) →
      ∃ pre r post, ws = pre ++ r :: post ∧ (∀ w ∈ pre, ¬ w ≥ threshold_bounded bound) ∧
        r ≥ threshold_bounded bound ∧
        pcg32_random_bounded bound ws = .ok (r % bound, post)) ∧
    ((∃ w ∈ ws, (w * bound) % 2 ^ 32 ≥ threshold_divisionless bound) →
      ∃ pre r post, ws = pre ++ r :: post ∧
        (∀ w ∈ pre, ¬ (w * bound) % 2 ^ 32 ≥ threshold_divisionless bound) ∧
        (r * bound) % 2 ^ 32 ≥ threshold_divisionless bound ∧
        pcg32_random_bounded_divisionless bound ws = .ok (r * bound / 2 ^ 32, post)) := by
  constructor
  · intro h
    obtain ⟨pre, r, post, e, hpre, hr⟩ :=
      exists_first_split (fun w => w ≥ threshold_bounded bound) ws h
    refine ⟨pre, r, post, e, hpre, hr, ?_⟩
    rw [threshold_bounded_eq bound h1 h2] at hpre hr
    rw [e]
    exact pcg32_random_bounded_first bound pre r post h1 h2
      (fun w hw => Nat.lt_of_not_le (hpre w hw)) hr
  · intro h
    obtain ⟨pre, r, post, e, hpre, hr⟩ :=
      exists_first_split (fun w => (w * bound) % 2 ^ 32 ≥ threshold_divisionless bound) ws h
    refine ⟨pre, r, post, e, hpre, hr, ?_⟩
    rw [threshold_divisionless_eq bound h1 h2] at hpre hr
    have hr32 : r < 2 ^ 32 := hws r (by simp [e])
    rw [e, ← (high32_eq r bound hr32 h1 (by omega)).2.1]
    exact pcg32_random_bounded_divisionless_first bound pre r post h1 h2
      (fun w hw => Nat.lt_of_not_le (hpre w hw)) hr

theorem samplers_terminate_witness :
    (1 ≤ 6 ∧ 6 ≤ 2 ^ 32 - 1 ∧ Words32 [0, 3, 2 ^ 31 + 5, 4]) ∧
    (∃ w ∈ [0, 3, 2 ^ 31 + 5, 4], w ≥ threshold_bounded 6) ∧
    (∃ w ∈ [0, 3, 2 ^ 31 + 5, 4], (w * 6) % 2 ^ 32 ≥ threshold_divisionless 6) ∧
    (∃ pre r post, [0, 3, 2 ^ 31 + 5, 4] = pre ++ r :: post ∧
      (∀ w ∈ pre, ¬ w ≥ threshold_bounded 6) ∧ r ≥ threshold_bounded 6 ∧
      pcg32_random_bounded 6 [0, 3, 2 ^ 31 + 5, 4] = .ok (r % 6, post)) ∧
    (∃ pre r post, [0, 3, 2 ^ 31 + 5, 4] = pre ++ r :: post ∧
      (∀ w ∈ pre, ¬ (w * 6) % 2 ^ 32 ≥ threshold_divisionless 6) ∧
      (r * 6) % 2 ^ 32 ≥ threshold_divisionless 6 ∧
      pcg32_random_bounded_divisionless 6 [0, 3, 2 ^ 31 + 5, 4] = .ok (r * 6 / 2 ^ 32, post)) :=
  ⟨⟨by decide, by decide, by decide⟩, by decide, by decide,
    (samplers_terminate 6 [0, 3, 2 ^ 31 + 5, 4] (by decide) (by decide) (by decide)).1
      (by decide),
    (samplers_terminate 6 [0, 3, 2 ^ 31 + 5, 4] (by decide) (by decide) (by decide)).2
      (by decide)⟩

/-! ## Counting the accepted words -/

theorem count_residue_window (m q T v : Nat) (hm : 1 ≤ m) (hv : v < m) :
    ((Finset.Ico T (T + m * q)).filter (fun r => r % m = v)).card = q := by
  have hper : Function.Periodic (fun r : Nat => r % m = v) (m * q) := by
    intro r
    simp [Nat.add_mul_mod_self_left]
  rw [Nat.filter_Ico_card_eq_of_periodic T (m * q) _ hper]
  have hc := Nat.count_modEq_card (b := m * q) (r := m) (by omega) v
  have e : (fun r : Nat => r % m = v) = (fun r : Nat => r ≡ v [MOD m]) := by
    funext r
    simp [Nat.ModEq, Nat.mod_eq_of_lt hv]
  have hc2 : Nat.count (fun r : Nat => r % m = v) (m * q) = q := by
    simp only [e]
    rw [hc]
    simp [Nat.mul_div_cancel_left q (show 0 < m by omega)]
  convert hc2

theorem multiple_window (m q a r : Nat) (hm : 1 ≤ m) :
    (a ≤ r * m ∧ r * m < a + m * q) ↔ ((a + m - 1) / m ≤ r ∧ r < (a + m - 1) / m + q) := by
  have k1 : (a + m - 1) / m ≤ r ↔ a ≤ r * m := by
    rw [← Nat.lt_succ_iff, Nat.div_lt_iff_lt_mul (by omega : 0 < m), Nat.succ_mul]
    omega
  have k2 : r < (a + m - 1) / m + q ↔ r * m < a + m * q := by
    rw [← Nat.add_mul_div_left _ _ (by omega : 0 < m), ← Nat.succ_le_iff,
      Nat.le_div_iff_mul_le (by omega : 0 < m), Nat.succ_mul]
    omega
  rw [k1, k2]

theorem count_bounded_fibre (bound v : Nat) (h1 : 1 ≤ bound) (hv : v < bound) :
    ((Finset.range (2 ^ 32)).filter (fun r => r ≥ 2 ^ 32 % bound ∧ r % bound = v)).card
      = 2 ^ 32 / bound := by
  have hsplit : 2 ^ 32 % bound + bound * (2 ^ 32 / bound) = 2 ^ 32 := Nat.mod_add_div _ _
  generalize 2 ^ 32 / bound = q at hsplit ⊢
  generalize 2 ^ 32 % bound = T at hsplit ⊢
  have hw := count_residue_window bound q T v h1 hv
  rw [hsplit] at hw
  have hset : (Finset.range (2 ^ 32)).filter (fun r => r ≥ T ∧ r % bound = v)
      = (Finset.Ico T (2 ^ 32)).filter (fun r => r % bound = v) := by
    ext r
    simp only [Finset.mem_filter, Finset.mem_range, Finset.mem_Ico]
    tauto
  rw [hset, hw]

theorem count_divisionless_fibre (range v : Nat) (h1 : 1 ≤ range) (hv : v < range) :
    ((Finset.range (2 ^ 32)).filter
      (fun r => (r * range) % 2 ^ 32 ≥ 2 ^ 32 % range ∧ r * range / 2 ^ 32 = v)).card
      = 2 ^ 32 / range := by
  have hsplit : 2 ^ 32 % range + range * (2 ^ 32 / range) = 2 ^ 32 := Nat.mod_add_div _ _
  have hT : 2 ^ 32 % range < range := Nat.mod_lt _ (by omega)
  generalize hq : 2 ^ 32 / range = q at hsplit
  generalize hTT : 2 ^ 32 % range = T at hsplit hT
  have hset : (Finset.range (2 ^ 32)).filter
      (fun r => (r * range) % 2 ^ 32 ≥ T ∧ r * range / 2 ^ 32 = v)
      = Finset.Ico ((v * 2 ^ 32 + T + range - 1) / range) ((v * 2 ^ 32 + T + range - 1) / range + q) := by
    ext r
    rw [Finset.mem_filter, Finset.mem_range, Finset.mem_Ico, ← multiple_window range q (v * 2 ^ 32 + T) r h1]
    constructor
    · rintro ⟨_, hlow, hhigh⟩
      generalize r * range = p at hlow hhigh ⊢
      generalize range * q = Q at hsplit ⊢
      omega
    · rintro ⟨ha, hb⟩
      have hr : r < 2 ^ 32 := by
        have : r * range < 2 ^ 32 * range := by
          generalize r * range = p at ha hb ⊢
          generalize range * q = Q at hsplit hb
          omega
        exact Nat.lt_of_mul_lt_mul_right this
      refine ⟨hr, ?_⟩
      generalize r * range = p at ha hb ⊢
      generalize range * q = Q at hsplit hb
      omega
  rw [hset, Nat.card_Ico]
  omega

theorem count_bounded_accepted (bound : Nat) :
    ((Finset.range (2 ^ 32)).filter (fun r => r ≥ 2 ^ 32 % bound)).card
      = 2 ^ 32 - 2 ^ 32 % bound := by
  generalize 2 ^ 32 % bound = T
  have hset : (Finset.range (2 ^ 32)).filter (fun r => r ≥ T) = Finset.Ico T (2 ^ 32) := by
    ext r
    simp only [Finset.mem_filter, Finset.mem_range, Finset.mem_Ico]
    tauto
  rw [hset, Nat.card_Ico]

theorem count_divisionless_accepted (range : Nat) (h1 : 1 ≤ range) :
    ((Finset.range (2 ^ 32)).filter (fun r => (r * range) % 2 ^ 32 ≥ 2 ^ 32 % range)).card
      = 2 ^ 32 - 2 ^ 32 % range := by
  have hsplit : 2 ^ 32 % range + range * (2 ^ 32 / range) = 2 ^ 32 := Nat.mod_add_div _ _
  have hmaps : ∀ r ∈ (Finset.range (2 ^ 32)).filter
      (fun r => (r * range) % 2 ^ 32 ≥ 2 ^ 32 % range),
      r * range / 2 ^ 32 ∈ Finset.range range := by
    intro r hr
    rw [Finset.mem_filter, Finset.mem_range] at hr
    rw [Finset.mem_range]
    have hp : r * range ≤ (2 ^ 32 - 1) * range := Nat.mul_le_mul_right range (by omega)
    generalize r * range = p at hp
    omega
  rw [Finset.card_eq_sum_card_fiberwise hmaps]
  have hfib : ∀ v ∈ Finset.range range,
      (((Finset.range (2 ^ 32)).filter (fun r => (r * range) % 2 ^ 32 ≥ 2 ^ 32 % range)).filter
        (fun r => r * range / 2 ^ 32 = v)).card = 2 ^ 32 / range := by
    intro v hv
    rw [Finset.filter_filter]
    exact count_divisionless_fibre range v h1 (Finset.mem_range.mp hv)
  rw [Finset.sum_congr rfl hfib, Finset.sum_const, Finset.card_range, smul_eq_mul]
  omega

/-- C3: `pcg32_random_bounded` is exactly uniform.  For `1 ≤ bound ≤ 2^32 - 1`
and `v < bound`, a single word `r` makes the sampler return `v` exactly when it
is accepted (`r ≥ threshold`) and `r mod bound = v`, and the number of 32-bit
words that are accepted and reduce to `v` is `2^32 / bound`, the same for
every `v`. -/
theorem pcg32_random_bounded_uniform (bound v : Nat) (h1 : 1 ≤ bound)
    (h2 : bound ≤ 2 ^ 32 - 1) (hv : v < bound) :
    (∀ r, pcg32_random_bounded bound [r] = .ok (v, []) ↔
      (r ≥ threshold_bounded bound ∧ r % bound = v)) ∧
    ((Finset.range (2 ^ 32)).filter
      (fun r => r ≥ threshold_bounded bound ∧ r % bound = v)).card = 2 ^ 32 / bound := by
  constructor
  · intro r
    unfold pcg32_random_bounded
    rw [if_neg (by omega)]
    unfold bounded_loop
    by_cases hr : r ≥ threshold_bounded bound
    · rw [if_pos hr]
      constructor
      · intro h
        injection h with h
        injection h with h
        exact ⟨hr, h⟩
      · rintro ⟨_, h⟩
        rw [h]
    · rw [if_neg hr]
      constructor
      · intro h
        simp [bounded_loop] at h
      · rintro ⟨h, _⟩
        exact absurd h hr
  · rw [threshold_bounded_eq bound h1 h2]
    exact count_bounded_fibre bound v h1 hv

theorem pcg32_random_bounded_uniform_witness :
    (1 ≤ 6 ∧ 6 ≤ 2 ^ 32 - 1 ∧ 5 < 6) ∧
    ((∀ r, pcg32_random_bounded 6 [r] = .ok (5, []) ↔
      (r ≥ threshold_bounded 6 ∧ r % 6 = 5)) ∧
    ((Finset.range (2 ^ 32)).filter
      (fun r => r ≥ threshold_bounded 6 ∧ r % 6 = 5)).card = 2 ^ 32 / 6) :=
  ⟨⟨by decide, by decide, by decide⟩,
    pcg32_random_bounded_uniform 6 5 (by decide) (by decide) (by decide)⟩

/-- C4: `pcg32_random_bounded_divisionless` is exactly uniform.  For
`1 ≤ range ≤ 2^32 - 1` and `v < range`, a single 32-bit word `r` makes the
sampler return `v` exactly when it is accepted (low 32 bits of `r * range` at
least `threshold`) and the high 32 bits of `r * range` are `v`, and the number
of 32-bit words with both properties is `2^32 / range`, the same for every
`v`. -/
theorem pcg32_random_bounded_divisionless_uniform (range v : Nat) (h1 : 1 ≤ range)
    (h2 : range ≤ 2 ^ 32 - 1) (hv : v < range) :
    (∀ r, r < 2 ^ 32 → (pcg32_random_bounded_divisionless range [r] = .ok (v, []) ↔
      ((r * range) % 2 ^ 32 ≥ threshold_divisionless range ∧ r * range / 2 ^ 32 = v))) ∧
    ((Finset.range (2 ^ 32)).filter
      (fun r => (r * range) % 2 ^ 32 ≥ threshold_divisionless range ∧
        r * range / 2 ^ 32 = v)).card = 2 ^ 32 / range := by
  constructor
  · intro r hr
    rw [threshold_divisionless_eq range h1 h2]
    have hh := (high32_eq r range hr h1 (by omega)).2.1
    constructor
    · intro h
      obtain ⟨pre, r1, e, _, hacc, hval⟩ :=
        pcg32_random_bounded_divisionless_ok range [r] v [] h1 h2 h
      have hpre : pre = [] := by
        cases pre with
        | nil => rfl
        | cons x tl =>
          have := congrArg List.length e
          simp at this
      subst hpre
      simp only [List.nil_append, List.cons.injEq, and_true] at e
      subst e
      exact ⟨hacc, by rw [hval, hh]⟩
    · rintro ⟨hacc, hval⟩
      have h := pcg32_random_bounded_divisionless_first range [] r [] h1 h2 (by simp) hacc
      rw [hh, hval] at h
      simpa using h
  · rw [threshold_divisionless_eq range h1 h2]
    exact count_divisionless_fibre range v h1 hv

theorem pcg32_random_bounded_divisionless_uniform_witness :
    (1 ≤ 6 ∧ 6 ≤ 2 ^ 32 - 1 ∧ 5 < 6) ∧
    ((∀ r, r < 2 ^ 32 → (pcg32_random_bounded_divisionless 6 [r] = .ok (5, []) ↔
      ((r * 6) % 2 ^ 32 ≥ threshold_divisionless 6 ∧ r * 6 / 2 ^ 32 = 5))) ∧
    ((Finset.range (2 ^ 32)).filter
      (fun r => (r * 6) % 2 ^ 32 ≥ threshold_divisionless 6 ∧
        r * 6 / 2 ^ 32 = 5)).card = 2 ^ 32 / 6) :=
  ⟨⟨by decide, by decide, by decide⟩,
    pcg32_random_bounded_divisionless_uniform 6 5 (by decide) (by decide) (by decide)⟩

/-! ## Exchanging two elements -/

theorem cons_set_perm {α : Type} (t : List α) (k : Nat) (y h : α) (hy : t[k]? = some y) :
    (y :: t.set k h).Perm (h :: t) := by
  induction t generalizing k with
  | nil => simp at hy
  | cons z s ih =>
    cases k with
    | zero =>
      simp only [List.getElem?_cons_zero, Option.some.injEq] at hy
      subst hy
      exact List.Perm.swap h z s
    | succ k =>
      simp only [List.getElem?_cons_succ] at hy
      exact ((List.Perm.swap z y _).trans ((ih k hy).cons z)).trans (List.Perm.swap h z s)

theorem set_set_perm_of_get {α : Type} (xs : List α) (a b : Nat) (x y : α)
    (hx : xs[a]? = some x) (hy : xs[b]? = some y) :
    ((xs.set a y).set b x).Perm xs := by
  induction xs generalizing a b with
  | nil => simp at hx
  | cons h t ih =>
    cases a with
    | zero =>
      simp only [List.getElem?_cons_zero, Option.some.injEq] at hx
      subst hx
      cases b with
      | zero =>
        simp only [List.getElem?_cons_zero, Option.some.injEq] at hy
        subst hy
        simp
      | succ b =>
        simp only [List.getElem?_cons_succ] at hy
        exact cons_set_perm t b y h hy
    | succ a =>
      simp only [List.getElem?_cons_succ] at hx
      cases b with
      | zero =>
        simp only [List.getElem?_cons_zero, Option.some.injEq] at hy
        subst hy
        exact cons_set_perm t a x h hx
      | succ b =>
        simp only [List.getElem?_cons_succ] at hy
        exact (ih a b hx hy).cons h

theorem swap_elems_perm {α : Type} (xs : List α) (a b : Nat) : (swap_elems xs a b).Perm xs := by
  unfold swap_elems
  split
  · next x y hx hy => exact set_set_perm_of_get xs a b x y hx hy
  · exact List.Perm.refl xs

theorem swap_elems_getElem? {α : Type} (xs : List α) (a b k : Nat) (ha : a < xs.length)
    (hb : b < xs.length) :
    (swap_elems xs a b)[k]? = if k = b then xs[a]? else if k = a then xs[b]? else xs[k]? := by
  unfold swap_elems
  rw [List.getElem?_eq_getElem ha, List.getElem?_eq_getElem hb]
  simp only [List.getElem?_set, List.length_set]
  by_cases h1 : b = k
  · subst h1
    simp [hb]
  · by_cases h2 : a = k
    · subst h2
      simp [h1, ha, Ne.symm h1]
    · simp [h1, h2, Ne.symm h1, Ne.symm h2]

theorem swap_ok_perm {α : Type} (xs ys : List α) (a b : Nat) (h : swap xs a b = .ok ys) :
    ys.Perm xs := by
  unfold swap at h
  split at h
  · injection h with h
    exact h ▸ swap_elems_perm xs a b
  · cases h

/-! ## The shuffles return a rearrangement -/

theorem shuffle_pcg_loop_perm {α : Type} (i : Nat) :
    ∀ (xs : List α) (ws : List Nat) (out : List α) (rest : List Nat),
      shuffle_pcg_loop i xs ws = .ok (out, rest) → out.Perm xs := by
  induction i with
  | zero =>
    intro xs ws out rest h
    simp only [shuffle_pcg_loop, Except.ok.injEq, Prod.mk.injEq] at h
    exact h.1 ▸ List.Perm.refl _
  | succ i ih =>
    intro xs ws out rest h
    cases i with
    | zero =>
      simp only [shuffle_pcg_loop, Except.ok.injEq, Prod.mk.injEq] at h
      exact h.1 ▸ List.Perm.refl _
    | succ i =>
      simp only [shuffle_pcg_loop] at h
      split at h
      · cases h
      · split at h
        · cases h
        · next hs => exact (ih _ _ _ _ h).trans (swap_ok_perm _ _ _ _ hs)

theorem shuffle_pcg_divisionless_loop_perm {α : Type} (i : Nat) :
    ∀ (xs : List α) (ws : List Nat) (out : List α) (rest : List Nat),
      shuffle_pcg_divisionless_loop i xs ws = .ok (out, rest) → out.Perm xs := by
  induction i with
  | zero =>
    intro xs ws out rest h
    simp only [shuffle_pcg_divisionless_loop, Except.ok.injEq, Prod.mk.injEq] at h
    exact h.1 ▸ List.Perm.refl _
  | succ i ih =>
    intro xs ws out rest h
    cases i with
    | zero =>
      simp only [shuffle_pcg_divisionless_loop, Except.ok.injEq, Prod.mk.injEq] at h
      exact h.1 ▸ List.Perm.refl _
    | succ i =>
      simp only [shuffle_pcg_divisionless_loop] at h
      split at h
      · cases h
      · split at h
        · cases h
        · next hs => exact (ih _ _ _ _ h).trans (swap_ok_perm _ _ _ _ hs)

/-- C5: for every array, every size and every word list on which the run
returns, the array after `shuffle_pcg` and after `shuffle_pcg_divisionless` is a
permutation of the array before: it has the same length and the same elements
with the same multiplicities. -/
theorem shuffles_permute {α : Type} (storage : List α) (size : Nat) (ws : List Nat)
    (out : List α) (rest : List Nat)
    (hret : shuffle_pcg storage size ws = .ok (out, rest) ∨
      shuffle_pcg_divisionless storage size ws = .ok (out, rest)) :
    out.length = storage.length ∧ out.Perm storage := by
  have hp : out.Perm storage := by
    rcases hret with h | h
    · exact shuffle_pcg_loop_perm size storage ws out rest h
    · exact shuffle_pcg_divisionless_loop_perm size storage ws out rest h
  exact ⟨hp.length_eq, hp⟩

theorem shuffles_permute_witness :
    (shuffle_pcg [10, 20, 30, 40, 50] 5 [7, 8, 9, 10, 11, 12]
        = .ok ([20, 50, 40, 10, 30], [11, 12]) ∧
      shuffle_pcg_divisionless [1, 2, 3, 4, 5] 5 [7, 8, 2147483648, 1073741824, 1476395008, 12]
        = .ok ([3, 4, 2, 5, 1], [1476395008, 12])) ∧
    (([20, 50, 40, 10, 30].length = [10, 20, 30, 40, 50].length ∧
      [20, 50, 40, 10, 30].Perm [10, 20, 30, 40, 50]) ∧
    ([3, 4, 2, 5, 1].length = [1, 2, 3, 4, 5].length ∧
      [3, 4, 2, 5, 1].Perm [1, 2, 3, 4, 5])) :=
  ⟨⟨rfl, rfl⟩,
    shuffles_permute [10, 20, 30, 40, 50] 5 [7, 8, 9, 10, 11, 12] [20, 50, 40, 10, 30] [11, 12]
      (Or.inl rfl),
    shuffles_permute [1, 2, 3, 4, 5] 5 [7, 8, 2147483648, 1073741824, 1476395008, 12]
      [3, 4, 2, 5, 1] [1476395008, 12] (Or.inr rfl)⟩

/-! ## Acceptance probability -/

/-- C10 (as stated, refuted): at `bound = 3`, inside `1 ≤ bound ≤ 2^31`, both
samplers compute `threshold = 1`, so `bound - threshold = 2`, which is not
`≥ 2^31`: the fraction `(bound - threshold) / 2^32` is far below `1/2`. -/
theorem acceptance_bound_counterexample :
    (1 ≤ 3 ∧ 3 ≤ 2 ^ 31) ∧ threshold_bounded 3 = 1 ∧ threshold_divisionless 3 = 1 ∧
      ¬ (3 - threshold_bounded 3 ≥ 2 ^ 31) := by
  decide

/-- C10 (amended): for `1 ≤ bound ≤ 2^31`, each sampler accepts exactly
`2^32 - threshold` of the `2^32` words; this number is at least
`bound - threshold` and at least `2^31`, so the acceptance probability is at
least `1/2`.  The quantity `bound - threshold` itself reaches `2^31` only at
`bound = 2^31`. -/
theorem acceptance_at_least_half (bound : Nat) (h1 : 1 ≤ bound) (h2 : bound ≤ 2 ^ 31) :
    accepted_bounded bound = 2 ^ 32 - threshold_bounded bound ∧
    accepted_divisionless bound = 2 ^ 32 - threshold_divisionless bound ∧
    accepted_bounded bound ≥ bound - threshold_bounded bound ∧
    accepted_divisionless bound ≥ bound - threshold_divisionless bound ∧
    accepted_bounded bound ≥ 2 ^ 31 ∧
    accepted_divisionless bound ≥ 2 ^ 31 ∧
    (bound - threshold_bounded bound ≥ 2 ^ 31 ↔ bound = 2 ^ 31) := by
  have hb : bound ≤ 2 ^ 32 - 1 := by omega
  have hT : 2 ^ 32 % bound < bound := Nat.mod_lt _ (by omega)
  have e1 : accepted_bounded bound = 2 ^ 32 - 2 ^ 32 % bound := by
    unfold accepted_bounded
    rw [threshold_bounded_eq bound h1 hb]
    exact count_bounded_accepted bound
  have e2 : accepted_divisionless bound = 2 ^ 32 - 2 ^ 32 % bound := by
    unfold accepted_divisionless
    rw [threshold_divisionless_eq bound h1 hb]
    exact count_divisionless_accepted bound h1
  rw [e1, e2, threshold_bounded_eq bound h1 hb, threshold_divisionless_eq bound h1 hb]
  refine ⟨rfl, rfl, by omega, by omega, by omega, by omega, ?_⟩
  constructor
  · intro h
    omega
  · intro h
    subst h
    decide

theorem acceptance_at_least_half_witness :
    (1 ≤ 3 ∧ 3 ≤ 2 ^ 31) ∧
    (accepted_bounded 3 = 2 ^ 32 - threshold_bounded 3 ∧
    accepted_divisionless 3 = 2 ^ 32 - threshold_divisionless 3 ∧
    accepted_bounded 3 ≥ 3 - threshold_bounded 3 ∧
    accepted_divisionless 3 ≥ 3 - threshold_divisionless 3 ∧
    accepted_bounded 3 ≥ 2 ^ 31 ∧
    accepted_divisionless 3 ≥ 2 ^ 31 ∧
    (3 - threshold_bounded 3 ≥ 2 ^ 31 ↔ 3 = 2 ^ 31)) :=
  ⟨⟨by decide, by decide⟩, acceptance_at_least_half 3 (by decide) (by decide)⟩

/-! ## The Fisher-Yates loop over the sampler results -/

theorem swap_elems_length {α : Type} (xs : List α) (a b : Nat) :
    (swap_elems xs a b).length = xs.length :=
  (swap_elems_perm xs a b).length_eq

theorem fisher_yates_perm {α : Type} (i : Nat) :
    ∀ (xs : List α) (js : List Nat), (fisher_yates i xs js).Perm xs := by
  induction i with
  | zero => intro xs js; simp [fisher_yates]
  | succ i ih =>
    intro xs js
    cases i with
    | zero => simp [fisher_yates]
    | succ i =>
      cases js with
      | nil => simp [fisher_yates]
      | cons j js =>
        simp only [fisher_yates]
        exact (ih _ js).trans (swap_elems_perm xs _ j)

theorem fisher_yates_frame {α : Type} (i : Nat) :
    ∀ (xs : List α) (js : List Nat) (k : Nat), i ≤ xs.length → draws_in_range i js → i ≤ k →
      (fisher_yates i xs js)[k]? = xs[k]? := by
  induction i with
  | zero => intro xs js k _ _ _; simp [fisher_yates]
  | succ i ih =>
    intro xs js k hlen hjs hk
    cases i with
    | zero => simp [fisher_yates]
    | succ i =>
      cases js with
      | nil => simp [fisher_yates]
      | cons j js =>
        simp only [draws_in_range] at hjs
        simp only [fisher_yates]
        rw [show i + 2 - 1 = i + 1 from rfl, ih _ js k (by rw [swap_elems_length]; omega) hjs.2 (by omega),
          swap_elems_getElem? xs (i + 1) j k (by omega) (by omega),
          if_neg (by omega), if_neg (by omega)]

theorem fisher_yates_placed {α : Type} (i : Nat) (xs : List α) (j : Nat) (js : List Nat)
    (hlen : i + 2 ≤ xs.length) (hj : j < i + 2) (hjs : draws_in_range (i + 1) js) :
    (fisher_yates (i + 2) xs (j :: js))[i + 1]? = xs[j]? := by
  simp only [fisher_yates]
  rw [show i + 2 - 1 = i + 1 from rfl, fisher_yates_frame (i + 1) _ js (i + 1) (by rw [swap_elems_length]; omega) hjs
      (Nat.le_refl _),
    swap_elems_getElem? xs (i + 1) j (i + 1) (by omega) (by omega)]
  by_cases h : i + 1 = j
  · rw [if_pos h, h]
  · rw [if_neg h, if_pos rfl]

theorem nodup_index_unique {α : Type} (xs : List α) (hnd : xs.Nodup) (a b : Nat)
    (ha : a < xs.length) (h : xs[a]? = xs[b]?) : a = b := by
  have hb : b < xs.length := by
    by_contra hb
    rw [List.getElem?_eq_getElem ha, List.getElem?_eq_none (by omega)] at h
    cases h
  rw [List.getElem?_eq_getElem ha, List.getElem?_eq_getElem hb, Option.some.injEq] at h
  exact hnd.getElem_inj_iff.mp h

theorem fisher_yates_injective {α : Type} (i : Nat) :
    ∀ (xs : List α) (js js1 : List Nat), xs.Nodup → i ≤ xs.length →
      draws_in_range i js → draws_in_range i js1 →
      fisher_yates i xs js = fisher_yates i xs js1 → js = js1 := by
  induction i with
  | zero =>
    intro xs js js1 _ _ h h1 _
    simp only [draws_in_range] at h h1
    rw [h, h1]
  | succ i ih =>
    intro xs js js1 hnd hlen h h1 he
    cases i with
    | zero =>
      simp only [draws_in_range] at h h1
      rw [h, h1]
    | succ i =>
      cases js with
      | nil => simp [draws_in_range] at h
      | cons j js =>
        cases js1 with
        | nil => simp [draws_in_range] at h1
        | cons j1 js1 =>
          simp only [draws_in_range] at h h1
          have hp := fisher_yates_placed i xs j js hlen h.1 h.2
          have hp1 := fisher_yates_placed i xs j1 js1 hlen h1.1 h1.2
          rw [he, hp1] at hp
          have hjj : j1 = j := nodup_index_unique xs hnd j1 j (by omega) hp
          subst hjj
          simp only [fisher_yates] at he
          have hnd1 : (swap_elems xs (i + 2 - 1) j1).Nodup :=
            (swap_elems_perm xs _ j1).nodup_iff.mpr hnd
          rw [ih _ js js1 hnd1 (by rw [swap_elems_length]; omega) h.2 h1.2 he]

theorem eq_of_perm_of_agree_from_one {α : Type} (xs l : List α) (hnd : xs.Nodup)
    (hp : l.Perm xs) (hag : ∀ k, 1 ≤ k → l[k]? = xs[k]?) : l = xs := by
  have hndl : l.Nodup := hp.nodup_iff.mpr hnd
  apply List.ext_getElem?
  intro k
  cases k with
  | succ k => exact hag (k + 1) (by omega)
  | zero =>
    by_cases hl : 0 < l.length
    · have hmem : l[0] ∈ xs := hp.subset (List.getElem_mem hl)
      obtain ⟨m, hm⟩ := List.mem_iff_getElem?.mp hmem
      have h0 : l[0]? = some l[0] := List.getElem?_eq_getElem hl
      cases m with
      | zero => rw [h0, hm]
      | succ m =>
        have hlm : l[0]? = l[m + 1]? := by rw [hag (m + 1) (by omega), hm, h0]
        have := nodup_index_unique l hndl 0 (m + 1) hl hlm
        omega
    · have hx : ¬ 0 < xs.length := by rw [← hp.length_eq]; exact hl
      rw [List.getElem?_eq_none (by omega), List.getElem?_eq_none (by omega)]

theorem fisher_yates_surjective {α : Type} (i : Nat) :
    ∀ (xs l : List α), xs.Nodup → i ≤ xs.length → l.Perm xs →
      (∀ k, i ≤ k → l[k]? = xs[k]?) →
      ∃ js, draws_in_range i js ∧ fisher_yates i xs js = l := by
  induction i with
  | zero =>
    intro xs l _ _ _ hag
    refine ⟨[], by simp [draws_in_range], ?_⟩
    simp only [fisher_yates]
    exact (List.ext_getElem? (fun k => hag k (Nat.zero_le k))).symm
  | succ i ih =>
    intro xs l hnd hlen hp hag
    cases i with
    | zero =>
      refine ⟨[], by simp [draws_in_range], ?_⟩
      simp only [fisher_yates]
      exact (eq_of_perm_of_agree_from_one xs l hnd hp hag).symm
    | succ i =>
      have hndl : l.Nodup := hp.nodup_iff.mpr hnd
      have hll : i + 1 < l.length := by rw [hp.length_eq]; omega
      have hmem : l[i + 1] ∈ xs := hp.subset (List.getElem_mem hll)
      obtain ⟨j, hj⟩ := List.mem_iff_getElem?.mp hmem
      have hl1 : l[i + 1]? = some l[i + 1] := List.getElem?_eq_getElem hll
      have hjlen : j < xs.length := (List.getElem?_eq_some.mp hj).1
      have hjlt : j < i + 2 := by
        by_contra hge
        have hlj : l[i + 1]? = l[j]? := by rw [hag j (by omega), hj, hl1]
        have := nodup_index_unique l hndl (i + 1) j hll hlj
        omega
      have hag1 : ∀ k, i + 1 ≤ k → l[k]? = (swap_elems xs (i + 1) j)[k]? := by
        intro k hk
        rw [swap_elems_getElem? xs (i + 1) j k (by omega) hjlen]
        by_cases hkj : k = j
        · rw [if_pos hkj]
          have : k = i + 1 := by omega
          rw [this, hl1, ← hj, ← hkj, this]
        · rw [if_neg hkj]
          by_cases hki : k = i + 1
          · rw [if_pos hki, hki, hl1, hj]
          · rw [if_neg hki]
            exact hag k (by omega)
      obtain ⟨js, hjs, hfy⟩ := ih (swap_elems xs (i + 1) j) l
        ((swap_elems_perm xs _ j).nodup_iff.mpr hnd) (by rw [swap_elems_length]; omega)
        (hp.trans (swap_elems_perm xs _ j).symm) hag1
      exact ⟨j :: js, ⟨hjlt, hjs⟩, hfy⟩

/-! ## The shuffles are the Fisher-Yates loop fed with the sampler results -/

theorem swap_ok_eq {α : Type} (xs ys : List α) (a b : Nat) (h : swap xs a b = .ok ys) :
    ys = swap_elems xs a b := by
  unfold swap at h
  split at h
  · injection h with h
    exact h.symm
  · cases h

theorem pcg32_random_bounded_lt (bound : Nat) (ws : List Nat) (v : Nat) (rest : List Nat)
    (h1 : 1 ≤ bound) (h2 : bound ≤ 2 ^ 32 - 1)
    (h : pcg32_random_bounded bound ws = .ok (v, rest)) : v < bound := by
  obtain ⟨pre, r, _, _, _, hv⟩ := pcg32_random_bounded_ok bound ws v rest h1 h2 h
  exact hv ▸ Nat.mod_lt r (by omega)

theorem pcg32_random_bounded_divisionless_lt (range : Nat) (ws : List Nat) (v : Nat)
    (rest : List Nat) (h1 : 1 ≤ range) (h2 : range ≤ 2 ^ 32 - 1) (hws : Words32 ws)
    (h : pcg32_random_bounded_divisionless range ws = .ok (v, rest)) :
    v < range ∧ Words32 rest := by
  obtain ⟨pre, r, e, _, _, hv⟩ := pcg32_random_bounded_divisionless_ok range ws v rest h1 h2 h
  have hr : r < 2 ^ 32 := hws r (by simp [e])
  refine ⟨hv ▸ (high32_eq r range hr h1 (by omega)).2.2, ?_⟩
  intro w hw
  exact hws w (by simp [e, hw])

theorem shuffle_pcg_loop_draws {α : Type} (i : Nat) :
    ∀ (xs : List α) (ws : List Nat) (out : List α) (rest : List Nat), i ≤ 2 ^ 32 - 1 →
      shuffle_pcg_loop i xs ws = .ok (out, rest) →
      ∃ js, draws_in_range i js ∧ fisher_yates i xs js = out := by
  induction i with
  | zero =>
    intro xs ws out rest _ h
    simp only [shuffle_pcg_loop, Except.ok.injEq, Prod.mk.injEq] at h
    exact ⟨[], by simp [draws_in_range], by simp [fisher_yates, h.1]⟩
  | succ i ih =>
    intro xs ws out rest hi h
    cases i with
    | zero =>
      simp only [shuffle_pcg_loop, Except.ok.injEq, Prod.mk.injEq] at h
      exact ⟨[], by simp [draws_in_range], by simp [fisher_yates, h.1]⟩
    | succ i =>
      simp only [shuffle_pcg_loop] at h
      split at h
      · cases h
      · next hsam =>
        split at h
        · cases h
        · next hsw =>
          have hlt := pcg32_random_bounded_lt _ _ _ _ (by omega) hi hsam
          obtain ⟨js, hjs, hfy⟩ := ih _ _ _ _ (by omega) h
          rw [swap_ok_eq _ _ _ _ hsw] at hfy
          exact ⟨_ :: js, ⟨hlt, hjs⟩, hfy⟩

theorem shuffle_pcg_divisionless_loop_draws {α : Type} (i : Nat) :
    ∀ (xs : List α) (ws : List Nat) (out : List α) (rest : List Nat), i ≤ 2 ^ 32 - 1 →
      Words32 ws → shuffle_pcg_divisionless_loop i xs ws = .ok (out, rest) →
      ∃ js, draws_in_range i js ∧ fisher_yates i xs js = out := by
  induction i with
  | zero =>
    intro xs ws out rest _ _ h
    simp only [shuffle_pcg_divisionless_loop, Except.ok.injEq, Prod.mk.injEq] at h
    exact ⟨[], by simp [draws_in_range], by simp [fisher_yates, h.1]⟩
  | succ i ih =>
    intro xs ws out rest hi hws h
    cases i with
    | zero =>
      simp only [shuffle_pcg_divisionless_loop, Except.ok.injEq, Prod.mk.injEq] at h
      exact ⟨[], by simp [draws_in_range], by simp [fisher_yates, h.1]⟩
    | succ i =>
      simp only [shuffle_pcg_divisionless_loop] at h
      split at h
      · cases h
      · next hsam =>
        split at h
        · cases h
        · next hsw =>
          have hlt := pcg32_random_bounded_divisionless_lt _ _ _ _ (by omega) hi hws hsam
          obtain ⟨js, hjs, hfy⟩ := ih _ _ _ _ (by omega) hlt.2 h
          rw [swap_ok_eq _ _ _ _ hsw] at hfy
          exact ⟨_ :: js, ⟨hlt.1, hjs⟩, hfy⟩

/-! ## Bound zero -/

/-- C11 (as stated, refuted): with `range = 0`, `pcg32_random_bounded_divisionless`
draws the word `5` and returns the value `0`; no fault is reported. -/
theorem bound_zero_counterexample :
    pcg32_random_bounded_divisionless 0 [5, 3] = .ok (0, [3]) := by
  rfl

/-- C11 (amended): neither sampler checks for `bound = 0`.
`pcg32_random_bounded 0` reaches `% bound` with divisor zero before it draws a
word, so the run stops there whatever the words are.
`pcg32_random_bounded_divisionless 0` draws one word, skips the correction
branch (`leftover = 0` is not below `range = 0`), executes no division and no
loop, and returns `0` with the other words left. -/
theorem bound_zero_behaviour :
    (∀ ws, pcg32_random_bounded 0 ws = .error .div_by_zero) ∧
    (∀ r rest, pcg32_random_bounded_divisionless 0 (r :: rest) = .ok (0, rest)) := by
  constructor
  · intro ws
    rfl
  · intro r rest
    simp [pcg32_random_bounded_divisionless]

/-! ## Determinism: a run depends only on the words it draws -/

theorem pcg32_random_bounded_local (bound : Nat) (ws : List Nat) (v : Nat) (rest : List Nat)
    (h1 : 1 ≤ bound) (h2 : bound ≤ 2 ^ 32 - 1)
    (h : pcg32_random_bounded bound ws = .ok (v, rest)) :
    ∃ drawn, ws = drawn ++ rest ∧
      ∀ rest2, pcg32_random_bounded bound (drawn ++ rest2) = .ok (v, rest2) := by
  obtain ⟨pre, r, e, hpre, hr, hv⟩ := pcg32_random_bounded_ok bound ws v rest h1 h2 h
  refine ⟨pre ++ [r], by simp [e], ?_⟩
  intro rest2
  have := pcg32_random_bounded_first bound pre r rest2 h1 h2 hpre hr
  simpa [hv] using this

theorem pcg32_random_bounded_divisionless_local (range : Nat) (ws : List Nat) (v : Nat)
    (rest : List Nat) (h1 : 1 ≤ range) (h2 : range ≤ 2 ^ 32 - 1)
    (h : pcg32_random_bounded_divisionless range ws = .ok (v, rest)) :
    ∃ drawn, ws = drawn ++ rest ∧
      ∀ rest2, pcg32_random_bounded_divisionless range (drawn ++ rest2) = .ok (v, rest2) := by
  obtain ⟨pre, r, e, hpre, hr, hv⟩ :=
    pcg32_random_bounded_divisionless_ok range ws v rest h1 h2 h
  refine ⟨pre ++ [r], by simp [e], ?_⟩
  intro rest2
  have := pcg32_random_bounded_divisionless_first range pre r rest2 h1 h2 hpre hr
  simpa [hv] using this

theorem shuffle_pcg_loop_local {α : Type} (i : Nat) :
    ∀ (xs : List α) (ws : List Nat) (out : List α) (rest : List Nat), i ≤ 2 ^ 32 - 1 →
      shuffle_pcg_loop i xs ws = .ok (out, rest) →
      ∃ drawn, ws = drawn ++ rest ∧
        ∀ rest2, shuffle_pcg_loop i xs (drawn ++ rest2) = .ok (out, rest2) := by
  induction i with
  | zero =>
    intro xs ws out rest _ h
    simp only [shuffle_pcg_loop, Except.ok.injEq, Prod.mk.injEq] at h
    exact ⟨[], by simp [h.2], fun rest2 => by simp [shuffle_pcg_loop, h.1]⟩
  | succ i ih =>
    intro xs ws out rest hi h
    cases i with
    | zero =>
      simp only [shuffle_pcg_loop, Except.ok.injEq, Prod.mk.injEq] at h
      exact ⟨[], by simp [h.2], fun rest2 => by simp [shuffle_pcg_loop, h.1]⟩
    | succ i =>
      simp only [shuffle_pcg_loop] at h
      split at h
      · cases h
      · next hsam =>
        split at h
        · cases h
        · next hsw =>
          obtain ⟨d1, e1, hd1⟩ := pcg32_random_bounded_local _ _ _ _ (by omega) hi hsam
          obtain ⟨d2, e2, hd2⟩ := ih _ _ _ _ (by omega) h
          refine ⟨d1 ++ d2, by rw [e1, e2, List.append_assoc], ?_⟩
          intro rest2
          simp only [shuffle_pcg_loop, List.append_assoc, hd1 (d2 ++ rest2), hsw, hd2 rest2]

theorem shuffle_pcg_divisionless_loop_local {α : Type} (i : Nat) :
    ∀ (xs : List α) (ws : List Nat) (out : List α) (rest : List Nat), i ≤ 2 ^ 32 - 1 →
      shuffle_pcg_divisionless_loop i xs ws = .ok (out, rest) →
      ∃ drawn, ws = drawn ++ rest ∧
        ∀ rest2, shuffle_pcg_divisionless_loop i xs (drawn ++ rest2) = .ok (out, rest2) := by
  induction i with
  | zero =>
    intro xs ws out rest _ h
    simp only [shuffle_pcg_divisionless_loop, Except.ok.injEq, Prod.mk.injEq] at h
    exact ⟨[], by simp [h.2], fun rest2 => by simp [shuffle_pcg_divisionless_loop, h.1]⟩
  | succ i ih =>
    intro xs ws out rest hi h
    cases i with
    | zero =>
      simp only [shuffle_pcg_divisionless_loop, Except.ok.injEq, Prod.mk.injEq] at h
      exact ⟨[], by simp [h.2], fun rest2 => by simp [shuffle_pcg_divisionless_loop, h.1]⟩
    | succ i =>
      simp only [shuffle_pcg_divisionless_loop] at h
      split at h
      · cases h
      · next hsam =>
        split at h
        · cases h
        · next hsw =>
          obtain ⟨d1, e1, hd1⟩ :=
            pcg32_random_bounded_divisionless_local _ _ _ _ (by omega) hi hsam
          obtain ⟨d2, e2, hd2⟩ := ih _ _ _ _ (by omega) h
          refine ⟨d1 ++ d2, by rw [e1, e2, List.append_assoc], ?_⟩
          intro rest2
          simp only [shuffle_pcg_divisionless_loop, List.append_assoc, hd1 (d2 ++ rest2), hsw,
            hd2 rest2]

/-- C12: the shuffles are deterministic given the words drawn.  Two runs of
`shuffle_pcg` (respectively `shuffle_pcg_divisionless`) from the same array and
the same word list give the same result; moreover a run that drew exactly the
words `drawn` ends, on any source that delivers the same words `drawn` first,
with the same array and with the source advanced past exactly those words. -/
theorem shuffles_deterministic {α : Type} (storage : List α) (size : Nat)
    (drawn rest1 rest2 : List Nat) (out : List α) (hsize : size ≤ 2 ^ 32 - 1) :
    (∀ r1 r2, shuffle_pcg storage size (drawn ++ rest1) = r1 →
      shuffle_pcg storage size (drawn ++ rest1) = r2 → r1 = r2) ∧
    (∀ r1 r2, shuffle_pcg_divisionless storage size (drawn ++ rest1) = r1 →
      shuffle_pcg_divisionless storage size (drawn ++ rest1) = r2 → r1 = r2) ∧
    (shuffle_pcg storage size (drawn ++ rest1) = .ok (out, rest1) →
      shuffle_pcg storage size (drawn ++ rest2) = .ok (out, rest2)) ∧
    (shuffle_pcg_divisionless storage size (drawn ++ rest1) = .ok (out, rest1) →
      shuffle_pcg_divisionless storage size (drawn ++ rest2) = .ok (out, rest2)) := by
  refine ⟨fun r1 r2 a b => a.symm.trans b, fun r1 r2 a b => a.symm.trans b, ?_, ?_⟩
  · intro h
    obtain ⟨d, e, hd⟩ := shuffle_pcg_loop_local size storage _ out rest1 hsize h
    rw [List.append_cancel_right e]
    exact hd rest2
  · intro h
    obtain ⟨d, e, hd⟩ := shuffle_pcg_divisionless_loop_local size storage _ out rest1 hsize h
    rw [List.append_cancel_right e]
    exact hd rest2

theorem shuffles_deterministic_witness :
    (3 ≤ 2 ^ 32 - 1 ∧
      shuffle_pcg [10, 20, 30] 3 ([0, 7, 9] ++ [1, 2]) = .ok ([10, 30, 20], [1, 2]) ∧
      shuffle_pcg_divisionless [10, 20, 30] 3 ([0, 7, 9] ++ [1, 2])
        = .ok ([20, 30, 10], [1, 2])) ∧
    (shuffle_pcg [10, 20, 30] 3 ([0, 7, 9] ++ [5]) = .ok ([10, 30, 20], [5]) ∧
      shuffle_pcg_divisionless [10, 20, 30] 3 ([0, 7, 9] ++ [5]) = .ok ([20, 30, 10], [5])) :=
  ⟨⟨by decide, rfl, rfl⟩,
    (shuffles_deterministic [10, 20, 30] 3 [0, 7, 9] [1, 2] [5] [10, 30, 20] (by decide)).2.2.1
      rfl,
    (shuffles_deterministic [10, 20, 30] 3 [0, 7, 9] [1, 2] [5] [20, 30, 10]
      (by decide)).2.2.2 rfl⟩

/-! ## `BEST_TIME` reports the minimum -/

theorem BEST_TIME_loop_spec (readings : Nat → Nat × Nat) (remaining : Nat) :
    ∀ (i m : Nat) (log : List Executed),
      (BEST_TIME_loop readings remaining i m log).1 ≤ m ∧
      (∀ k, k < remaining →
        (BEST_TIME_loop readings remaining i m log).1 ≤ cycles_diff readings (i + k)) ∧
      ((BEST_TIME_loop readings remaining i m log).1 = m ∨
        ∃ k, k < remaining ∧
          (BEST_TIME_loop readings remaining i m log).1 = cycles_diff readings (i + k)) ∧
      (BEST_TIME_loop readings remaining i m log).2
        = log ++ (List.replicate remaining [Executed.pre, Executed.test]).flatten := by
  induction remaining with
  | zero =>
    intro i m log
    simp [BEST_TIME_loop]
  | succ n ih =>
    intro i m log
    simp only [BEST_TIME_loop]
    have hm1 : (if cycles_diff readings i < m then cycles_diff readings i else m) ≤ m := by
      split <;> omega
    have hm2 : (if cycles_diff readings i < m then cycles_diff readings i else m)
        ≤ cycles_diff readings i := by
      split <;> omega
    have hm3 : (if cycles_diff readings i < m then cycles_diff readings i else m) = m ∨
        (if cycles_diff readings i < m then cycles_diff readings i else m)
          = cycles_diff readings i := by
      split
      · exact Or.inr rfl
      · exact Or.inl rfl
    generalize (if cycles_diff readings i < m then cycles_diff readings i else m) = m1
      at hm1 hm2 hm3 ⊢
    obtain ⟨h1, h2, h3, h4⟩ := ih (i + 1) m1 (log ++ [Executed.pre, Executed.test])
    refine ⟨by omega, ?_, ?_, ?_⟩
    · intro k hk
      cases k with
      | zero =>
        simp only [Nat.add_zero]
        omega
      | succ k =>
        have := h2 k (by omega)
        rw [show i + 1 + k = i + (k + 1) by omega] at this
        exact this
    · rcases h3 with h3 | ⟨k, hk, h3⟩
      · rcases hm3 with hm3 | hm3
        · exact Or.inl (h3.trans hm3)
        · exact Or.inr ⟨0, by omega, by simpa using h3.trans hm3⟩
      · refine Or.inr ⟨k + 1, by omega, ?_⟩
        rw [show i + (k + 1) = i + 1 + k by omega]
        exact h3
    · rw [h4, List.replicate_succ, List.flatten_cons, List.append_assoc]

theorem cycles_diff_lt (readings : Nat → Nat × Nat) (i : Nat) :
    cycles_diff readings i ≤ 2 ^ 64 - 1 := by
  unfold cycles_diff
  omega

/-- C13: `BEST_TIME` reports the minimum over all repeats.  For `repeat ≥ 1`
and any counter readings, the final `min_diff` is at most the difference
`(cycles_final - cycles_start) mod 2^64` of every iteration and equal to that
of one iteration; `pre` then `test` are executed once per iteration, `repeat`
times in all. -/
theorem BEST_TIME_minimum (readings : Nat → Nat × Nat) (repeats : Int) (h : 1 ≤ repeats) :
    (∀ i : Nat, (i : Int) < repeats →
      (BEST_TIME readings repeats).1 ≤ cycles_diff readings i) ∧
    (∃ i : Nat, (i : Int) < repeats ∧
      (BEST_TIME readings repeats).1 = cycles_diff readings i) ∧
    (BEST_TIME readings repeats).2
      = (List.replicate repeats.toNat [Executed.pre, Executed.test]).flatten ∧
    ((BEST_TIME readings repeats).2.count Executed.test : Int) = repeats ∧
    (∀ i, (readings i).1 < 2 ^ 64 → (readings i).2 < 2 ^ 64 →
      (cycles_diff readings i : Int)
        = (((readings i).2 : Int) - ((readings i).1 : Int)) % 2 ^ 64) := by
  obtain ⟨h1, h2, h3, h4⟩ := BEST_TIME_loop_spec readings repeats.toNat 0 (2 ^ 64 - 1) []
  have hlog : (BEST_TIME readings repeats).2
      = (List.replicate repeats.toNat [Executed.pre, Executed.test]).flatten := by
    unfold BEST_TIME
    rw [h4, List.nil_append]
  refine ⟨?_, ?_, hlog, ?_, ?_⟩
  · intro i hi
    have := h2 i (by omega)
    simpa [BEST_TIME] using this
  · rcases h3 with h3 | ⟨k, hk, h3⟩
    · refine ⟨0, by omega, ?_⟩
      have h0 := h2 0 (by omega)
      have hle := cycles_diff_lt readings 0
      unfold BEST_TIME
      simp only [Nat.add_zero] at h0
      omega
    · exact ⟨k, by omega, by simpa [BEST_TIME] using h3⟩
  · rw [hlog]
    have hcount : ∀ n : Nat,
        (List.replicate n [Executed.pre, Executed.test]).flatten.count Executed.test = n := by
      intro n
      induction n with
      | zero => simp
      | succ n ih =>
        rw [List.replicate_succ, List.flatten_cons, List.count_append, ih]
        simp [List.count_cons]
        omega
    rw [hcount]
    omega
  · intro i ha hb
    unfold cycles_diff
    omega

theorem BEST_TIME_minimum_witness :
    (1 : Int) ≤ 3 ∧
    BEST_TIME (fun i => (100 * i + 7, 100 * i + 60 - 9 * i)) 3
      = (35, [Executed.pre, Executed.test, Executed.pre, Executed.test,
          Executed.pre, Executed.test]) ∧
    ((∀ i : Nat, (i : Int) < 3 →
      (BEST_TIME (fun i => (100 * i + 7, 100 * i + 60 - 9 * i)) 3).1
        ≤ cycles_diff (fun i => (100 * i + 7, 100 * i + 60 - 9 * i)) i) ∧
    (∃ i : Nat, (i : Int) < 3 ∧
      (BEST_TIME (fun i => (100 * i + 7, 100 * i + 60 - 9 * i)) 3).1
        = cycles_diff (fun i => (100 * i + 7, 100 * i + 60 - 9 * i)) i) ∧
    (BEST_TIME (fun i => (100 * i + 7, 100 * i + 60 - 9 * i)) 3).2
      = (List.replicate (3 : Int).toNat [Executed.pre, Executed.test]).flatten ∧
    ((BEST_TIME (fun i => (100 * i + 7, 100 * i + 60 - 9 * i)) 3).2.count Executed.test : Int)
      = 3 ∧
    (∀ i, ((fun i => (100 * i + 7, 100 * i + 60 - 9 * i)) i : Nat × Nat).1 < 2 ^ 64 →
      ((fun i => (100 * i + 7, 100 * i + 60 - 9 * i)) i : Nat × Nat).2 < 2 ^ 64 →
      (cycles_diff (fun i => (100 * i + 7, 100 * i + 60 - 9 * i)) i : Int)
        = ((((fun i => (100 * i + 7, 100 * i + 60 - 9 * i)) i : Nat × Nat).2 : Int)
          - ((((fun i => (100 * i + 7, 100 * i + 60 - 9 * i)) i : Nat × Nat).1 : Nat) : Int))
            % 2 ^ 64)) :=
  ⟨by decide, rfl, BEST_TIME_minimum (fun i => (100 * i + 7, 100 * i + 60 - 9 * i)) 3 (by decide)⟩

/-! ## The samplers against their reference definitions -/

theorem bounded_loop_eq_dropWhile (bound threshold : Nat) (ws : List Nat) :
    bounded_loop bound threshold ws =
      match ws.dropWhile (fun w => decide (w < threshold)) with
      | [] => .error .starved
      | r :: rest => .ok (r % bound, rest) := by
  induction ws with
  | nil => rfl
  | cons w tl ih =>
    by_cases hw : w < threshold
    · have hn : ¬ w ≥ threshold := by omega
      simp only [bounded_loop, if_neg hn, List.dropWhile_cons, hw, decide_True, if_true]
      exact ih
    · have hp : w ≥ threshold := by omega
      simp only [bounded_loop, if_pos hp, List.dropWhile_cons, hw, decide_False]
      rfl

/-- C14: `pcg32_random_bounded` equals its reference definition.  For
`1 ≤ bound ≤ 2^32 - 1` it agrees with `pcg32_random_bounded_reference` on every
word list; and when the first word `≥ threshold = 2^32 mod bound` is `r` at
index `k` (all words before index `k` are below `threshold`), it returns
`r mod bound` and leaves the words after index `k`: the `k` words before are
discarded and exactly `k + 1` words are drawn. -/
theorem pcg32_random_bounded_refines (bound : Nat) (ws : List Nat) (k r : Nat)
    (h1 : 1 ≤ bound) (h2 : bound ≤ 2 ^ 32 - 1) :
    pcg32_random_bounded bound ws = pcg32_random_bounded_reference bound ws ∧
    (ws[k]? = some r → r ≥ 2 ^ 32 % bound →
      (∀ i w, i < k → ws[i]? = some w → w < 2 ^ 32 % bound) →
      pcg32_random_bounded bound ws = .ok (r % bound, ws.drop (k + 1)) ∧
      (∀ w ∈ ws.take k, w < 2 ^ 32 % bound) ∧
      ws.length - (ws.drop (k + 1)).length = k + 1) := by
  constructor
  · unfold pcg32_random_bounded pcg32_random_bounded_reference
    rw [if_neg (by omega), threshold_bounded_eq bound h1 h2]
    exact bounded_loop_eq_dropWhile bound _ ws
  · intro hk hr hpre
    have hklen : k < ws.length := (List.getElem?_eq_some.mp hk).1
    have hsplit : ws = ws.take k ++ r :: ws.drop (k + 1) := by
      have hget : ws[k] = r := (List.getElem?_eq_some.mp hk).2
      rw [← hget, ← List.drop_eq_getElem_cons hklen, List.take_append_drop]
    have htake : ∀ w ∈ ws.take k, w < 2 ^ 32 % bound := by
      intro w hw
      obtain ⟨i, hi⟩ := List.mem_iff_getElem?.mp hw
      have hik : i < k := by
        have := (List.getElem?_eq_some.mp hi).1
        rw [List.length_take] at this
        omega
      rw [List.getElem?_take_of_lt hik] at hi
      exact hpre i w hik hi
    refine ⟨?_, htake, ?_⟩
    · conv_lhs => rw [hsplit]
      exact pcg32_random_bounded_first bound (ws.take k) r (ws.drop (k + 1)) h1 h2 htake hr
    · rw [List.length_drop]
      omega

theorem pcg32_random_bounded_refines_witness :
    (1 ≤ 6 ∧ 6 ≤ 2 ^ 32 - 1) ∧
    ([0, 3, 4, 10, 11][2]? = some 4 ∧ 4 ≥ 2 ^ 32 % 6 ∧
      (∀ i w, i < 2 → [0, 3, 4, 10, 11][i]? = some w → w < 2 ^ 32 % 6)) ∧
    (pcg32_random_bounded 6 [0, 3, 4, 10, 11]
        = pcg32_random_bounded_reference 6 [0, 3, 4, 10, 11] ∧
      pcg32_random_bounded 6 [0, 3, 4, 10, 11] = .ok (4 % 6, [0, 3, 4, 10, 11].drop (2 + 1)) ∧
      (∀ w ∈ [0, 3, 4, 10, 11].take 2, w < 2 ^ 32 % 6) ∧
      [0, 3, 4, 10, 11].length - ([0, 3, 4, 10, 11].drop (2 + 1)).length = 2 + 1) :=
  have hpre : ∀ i w, i < 2 → [0, 3, 4, 10, 11][i]? = some w → w < 2 ^ 32 % 6 := by
    intro i w hi hw
    have hcases : i = 0 ∨ i = 1 := by omega
    rcases hcases with rfl | rfl
    · simp at hw
      omega
    · simp at hw
      omega
  ⟨⟨by decide, by decide⟩, ⟨rfl, by decide, hpre⟩,
    (pcg32_random_bounded_refines 6 [0, 3, 4, 10, 11] 2 4 (by decide) (by decide)).1,
    (pcg32_random_bounded_refines 6 [0, 3, 4, 10, 11] 2 4 (by decide) (by decide)).2
      rfl (by decide) hpre⟩

theorem divisionless_loop_eq_plain (range threshold : Nat) (ws : List Nat) :
    ∀ m, m % 2 ^ 32 < threshold →
      (match divisionless_loop range threshold m ws with
        | .error e => (.error e : Except Fault (Nat × List Nat))
        | .ok (m1, rest1) => .ok ((m1 / 2 ^ 32) % 2 ^ 32, rest1))
      = plain_rejection_loop range threshold ws := by
  induction ws with
  | nil =>
    intro m hm
    simp only [divisionless_loop, if_pos hm, plain_rejection_loop]
  | cons r tl ih =>
    intro m hm
    simp only [divisionless_loop, if_pos hm, plain_rejection_loop]
    by_cases hr : (r * range) % 2 ^ 64 % 2 ^ 32 < threshold
    · rw [if_pos hr]
      exact ih _ hr
    · rw [if_neg hr, divisionless_loop_stay range threshold _ tl (by omega)]

/-- C15: the fast path of `pcg32_random_bounded_divisionless` is consistent
with the threshold test.  For `1 ≤ range ≤ 2^32 - 1` and every word list, the
sampler gives the same result (same value, same words left, same failure when
the words run out) as the plain rejection loop that computes
`threshold = 2^32 mod range` up front and redraws while the low 32 bits of
`r * range` are below it; and a word whose `leftover` is at least `range` also
has `leftover ≥ threshold`. -/
theorem pcg32_random_bounded_divisionless_refines (range : Nat) (ws : List Nat)
    (h1 : 1 ≤ range) (h2 : range ≤ 2 ^ 32 - 1) :
    pcg32_random_bounded_divisionless range ws
      = pcg32_random_bounded_divisionless_reference range ws ∧
    (∀ r, (r * range) % 2 ^ 32 ≥ range →
      (r * range) % 2 ^ 32 ≥ threshold_divisionless range) := by
  have hT : 2 ^ 32 % range < range := Nat.mod_lt _ (by omega)
  constructor
  · unfold pcg32_random_bounded_divisionless_reference
    cases ws with
    | nil => rfl
    | cons r0 tl =>
      simp only [pcg32_random_bounded_divisionless, plain_rejection_loop]
      by_cases hl : (r0 * range) % 2 ^ 64 % 2 ^ 32 < range
      · rw [if_pos hl, if_neg (by omega), threshold_divisionless_eq range h1 h2]
        by_cases hlt : (r0 * range) % 2 ^ 64 % 2 ^ 32 < 2 ^ 32 % range
        · rw [if_pos hlt]
          exact divisionless_loop_eq_plain range _ tl _ hlt
        · rw [if_neg hlt, divisionless_loop_stay range _ _ tl (by omega)]
      · rw [if_neg hl, if_neg (by omega)]
  · intro r hr
    rw [threshold_divisionless_eq range h1 h2]
    omega

theorem pcg32_random_bounded_divisionless_refines_witness :
    (1 ≤ 6 ∧ 6 ≤ 2 ^ 32 - 1) ∧
    pcg32_random_bounded_divisionless 6 [0, 2147483653, 4] = .ok (3, [4]) ∧
    pcg32_random_bounded_divisionless_reference 6 [0, 2147483653, 4] = .ok (3, [4]) ∧
    (pcg32_random_bounded_divisionless 6 [0, 2147483653, 4]
      = pcg32_random_bounded_divisionless_reference 6 [0, 2147483653, 4] ∧
    (∀ r, (r * 6) % 2 ^ 32 ≥ 6 → (r * 6) % 2 ^ 32 ≥ threshold_divisionless 6)) :=
  ⟨⟨by decide, by decide⟩, rfl, rfl,
    pcg32_random_bounded_divisionless_refines 6 [0, 2147483653, 4] (by decide) (by decide)⟩

/-! ## The steps of a shuffle -/

theorem shuffle_pcg_loop_traced_erase {α : Type} (i : Nat) :
    ∀ (xs : List α) (ws : List Nat),
      erase_steps (shuffle_pcg_loop_traced i xs ws) = shuffle_pcg_loop i xs ws := by
  induction i with
  | zero => intro xs ws; rfl
  | succ i ih =>
    intro xs ws
    cases i with
    | zero => rfl
    | succ i =>
      simp only [shuffle_pcg_loop_traced, shuffle_pcg_loop]
      cases pcg32_random_bounded (i + 2) ws with
      | error e => rfl
      | ok res =>
        obtain ⟨nextpos, ws1⟩ := res
        simp only []
        cases swap xs (i + 2 - 1) nextpos with
        | error e => rfl
        | ok storage1 =>
          simp only []
          rw [← ih storage1 ws1]
          cases shuffle_pcg_loop_traced (i + 1) storage1 ws1 with
          | error e => rfl
          | ok res1 => rfl

theorem shuffle_pcg_divisionless_loop_traced_erase {α : Type} (i : Nat) :
    ∀ (xs : List α) (ws : List Nat),
      erase_steps (shuffle_pcg_divisionless_loop_traced i xs ws)
        = shuffle_pcg_divisionless_loop i xs ws := by
  induction i with
  | zero => intro xs ws; rfl
  | succ i ih =>
    intro xs ws
    cases i with
    | zero => rfl
    | succ i =>
      simp only [shuffle_pcg_divisionless_loop_traced, shuffle_pcg_divisionless_loop]
      cases pcg32_random_bounded_divisionless (i + 2) ws with
      | error e => rfl
      | ok res =>
        obtain ⟨nextpos, ws1⟩ := res
        simp only []
        cases swap xs (i + 2 - 1) nextpos with
        | error e => rfl
        | ok storage1 =>
          simp only []
          rw [← ih storage1 ws1]
          cases shuffle_pcg_divisionless_loop_traced (i + 1) storage1 ws1 with
          | error e => rfl
          | ok res1 => rfl

theorem descending_bounds_succ (i : Nat) :
    (List.range (i + 2 - 1)).map (fun k => i + 2 - k)
      = (i + 2) :: (List.range (i + 1 - 1)).map (fun k => i + 1 - k) := by
  rw [show i + 2 - 1 = i + 1 from rfl, show i + 1 - 1 = i from rfl, List.range_succ_eq_map,
    List.map_cons, List.map_map]
  congr 1
  apply List.map_congr_left
  intro k _
  simp only [Function.comp, Nat.succ_eq_add_one]
  omega

theorem bounded_loop_error (bound threshold : Nat) (ws : List Nat) (e : Fault)
    (h : bounded_loop bound threshold ws = .error e) : e = Fault.starved := by
  induction ws with
  | nil =>
    simp only [bounded_loop, Except.error.injEq] at h
    exact h.symm
  | cons r tl ih =>
    simp only [bounded_loop] at h
    split at h
    · cases h
    · exact ih h

theorem pcg32_random_bounded_error (bound : Nat) (ws : List Nat) (e : Fault) (h1 : 1 ≤ bound)
    (h : pcg32_random_bounded bound ws = .error e) : e = Fault.starved := by
  unfold pcg32_random_bounded at h
  rw [if_neg (by omega)] at h
  exact bounded_loop_error _ _ _ _ h

theorem divisionless_loop_error (range threshold : Nat) (ws : List Nat) :
    ∀ (m : Nat) (e : Fault), divisionless_loop range threshold m ws = .error e →
      e = Fault.starved := by
  induction ws with
  | nil =>
    intro m e h
    simp only [divisionless_loop] at h
    split at h
    · simp only [Except.error.injEq] at h
      exact h.symm
    · cases h
  | cons r tl ih =>
    intro m e h
    simp only [divisionless_loop] at h
    split at h
    · exact ih _ _ h
    · cases h

theorem pcg32_random_bounded_divisionless_error (range : Nat) (ws : List Nat) (e : Fault)
    (h1 : 1 ≤ range) (h : pcg32_random_bounded_divisionless range ws = .error e) :
    e = Fault.starved := by
  cases ws with
  | nil =>
    simp only [pcg32_random_bounded_divisionless, Except.error.injEq] at h
    exact h.symm
  | cons r tl =>
    simp only [pcg32_random_bounded_divisionless] at h
    split at h
    · rw [if_neg (by omega)] at h
      split at h
      · next hloop =>
        simp only [Except.error.injEq] at h
        subst h
        exact divisionless_loop_error _ _ _ _ _ hloop
      · cases h
    · cases h

theorem swap_in_bounds {α : Type} (xs : List α) (a b : Nat) (ha : a < xs.length)
    (hb : b < xs.length) : swap xs a b = .ok (swap_elems xs a b) := by
  unfold swap
  rw [if_pos ⟨ha, hb⟩]

theorem shuffle_pcg_loop_error {α : Type} (i : Nat) :
    ∀ (xs : List α) (ws : List Nat) (e : Fault), i ≤ 2 ^ 32 - 1 → i ≤ xs.length →
      shuffle_pcg_loop i xs ws = .error e → e = Fault.starved := by
  induction i with
  | zero =>
    intro xs ws e _ _ h
    simp [shuffle_pcg_loop] at h
  | succ i ih =>
    intro xs ws e hi hlen h
    cases i with
    | zero => simp [shuffle_pcg_loop] at h
    | succ i =>
      simp only [shuffle_pcg_loop] at h
      split at h
      · next hsam =>
        simp only [Except.error.injEq] at h
        subst h
        exact pcg32_random_bounded_error _ _ _ (by omega) hsam
      · next hsam =>
        have hlt := pcg32_random_bounded_lt _ _ _ _ (by omega) hi hsam
        rw [swap_in_bounds xs _ _ (show i + 2 - 1 < xs.length by omega) (by omega)] at h
        exact ih _ _ _ (by omega) (by rw [swap_elems_length]; omega) h

theorem shuffle_pcg_divisionless_loop_error {α : Type} (i : Nat) :
    ∀ (xs : List α) (ws : List Nat) (e : Fault), i ≤ 2 ^ 32 - 1 → i ≤ xs.length →
      Words32 ws → shuffle_pcg_divisionless_loop i xs ws = .error e → e = Fault.starved := by
  induction i with
  | zero =>
    intro xs ws e _ _ _ h
    simp [shuffle_pcg_divisionless_loop] at h
  | succ i ih =>
    intro xs ws e hi hlen hws h
    cases i with
    | zero => simp [shuffle_pcg_divisionless_loop] at h
    | succ i =>
      simp only [shuffle_pcg_divisionless_loop] at h
      split at h
      · next hsam =>
        simp only [Except.error.injEq] at h
        subst h
        exact pcg32_random_bounded_divisionless_error _ _ _ (by omega) hsam
      · next hsam =>
        have hlt := pcg32_random_bounded_divisionless_lt _ _ _ _ (by omega) hi hws hsam
        rw [swap_in_bounds xs _ _ (show i + 2 - 1 < xs.length by omega) (by omega)] at h
        exact ih _ _ _ (by omega) (by rw [swap_elems_length]; omega) hlt.2 h

theorem shuffle_pcg_loop_traced_steps {α : Type} (i : Nat) :
    ∀ (xs : List α) (ws : List Nat) (out : List α) (rest : List Nat) (steps : List SwapStep),
      i ≤ 2 ^ 32 - 1 → shuffle_pcg_loop_traced i xs ws = .ok (out, rest, steps) →
      steps.map (fun s => s.bound) = (List.range (i - 1)).map (fun k => i - k) ∧
      ∀ s ∈ steps, 2 ≤ s.bound ∧ s.bound ≤ i ∧ s.pos = s.bound - 1 ∧ s.nextpos < s.bound := by
  induction i with
  | zero =>
    intro xs ws out rest steps _ h
    simp only [shuffle_pcg_loop_traced, Except.ok.injEq, Prod.mk.injEq] at h
    rw [← h.2.2]
    simp
  | succ i ih =>
    intro xs ws out rest steps hi h
    cases i with
    | zero =>
      simp only [shuffle_pcg_loop_traced, Except.ok.injEq, Prod.mk.injEq] at h
      rw [← h.2.2]
      simp
    | succ i =>
      simp only [shuffle_pcg_loop_traced] at h
      split at h
      · cases h
      · next hsam =>
        split at h
        · cases h
        · split at h
          · cases h
          · next hrec =>
            simp only [Except.ok.injEq, Prod.mk.injEq] at h
            obtain ⟨_, _, hsteps⟩ := h
            have hlt := pcg32_random_bounded_lt _ _ _ _ (by omega) hi hsam
            obtain ⟨hb, hall⟩ := ih _ _ _ _ _ (by omega) hrec
            rw [← hsteps]
            constructor
            · rw [List.map_cons, hb, descending_bounds_succ]
            · intro s hs
              rcases List.mem_cons.mp hs with rfl | hs
              · exact ⟨by simp, by simp, rfl, hlt⟩
              · obtain ⟨a, b, c, d⟩ := hall s hs
                exact ⟨a, by omega, c, d⟩

theorem shuffle_pcg_divisionless_loop_traced_steps {α : Type} (i : Nat) :
    ∀ (xs : List α) (ws : List Nat) (out : List α) (rest : List Nat) (steps : List SwapStep),
      i ≤ 2 ^ 32 - 1 → Words32 ws →
      shuffle_pcg_divisionless_loop_traced i xs ws = .ok (out, rest, steps) →
      steps.map (fun s => s.bound) = (List.range (i - 1)).map (fun k => i - k) ∧
      ∀ s ∈ steps, 2 ≤ s.bound ∧ s.bound ≤ i ∧ s.pos = s.bound - 1 ∧ s.nextpos < s.bound := by
  induction i with
  | zero =>
    intro xs ws out rest steps _ _ h
    simp only [shuffle_pcg_divisionless_loop_traced, Except.ok.injEq, Prod.mk.injEq] at h
    rw [← h.2.2]
    simp
  | succ i ih =>
    intro xs ws out rest steps hi hws h
    cases i with
    | zero =>
      simp only [shuffle_pcg_divisionless_loop_traced, Except.ok.injEq, Prod.mk.injEq] at h
      rw [← h.2.2]
      simp
    | succ i =>
      simp only [shuffle_pcg_divisionless_loop_traced] at h
      split at h
      · cases h
      · next hsam =>
        split at h
        · cases h
        · split at h
          · cases h
          · next hrec =>
            simp only [Except.ok.injEq, Prod.mk.injEq] at h
            obtain ⟨_, _, hsteps⟩ := h
            have hlt := pcg32_random_bounded_divisionless_lt _ _ _ _ (by omega) hi hws hsam
            obtain ⟨hb, hall⟩ := ih _ _ _ _ _ (by omega) hlt.2 hrec
            rw [← hsteps]
            constructor
            · rw [List.map_cons, hb, descending_bounds_succ]
            · intro s hs
              rcases List.mem_cons.mp hs with rfl | hs
              · exact ⟨by simp, by simp, rfl, hlt.1⟩
              · obtain ⟨a, b, c, d⟩ := hall s hs
                exact ⟨a, by omega, c, d⟩

/-- C16: for `size ≤ 2^32 - 1`, an array of length at least `size` and 32-bit
words, `shuffle_pcg` and `shuffle_pcg_divisionless` are their step-recording
loops with the record dropped; a returning run executes exactly `size - 1`
steps (none for `size ≤ 1`), calls the sampler with the bounds
`size, size - 1, ..., 2` in that order, and at the step with bound `i` swaps
position `i - 1` with the sampler result `j < i`, so every position accessed is
below `size`; a run that does not return ran out of words (no access outside
the array, no division by zero); and for `size ≤ 1` the array is returned
unchanged with no word drawn. -/
theorem shuffle_steps {α : Type} (storage : List α) (size : Nat) (ws : List Nat)
    (hsize : size ≤ 2 ^ 32 - 1) (hlen : size ≤ storage.length) (hws : Words32 ws) :
    erase_steps (shuffle_pcg_loop_traced size storage ws) = shuffle_pcg storage size ws ∧
    erase_steps (shuffle_pcg_divisionless_loop_traced size storage ws)
      = shuffle_pcg_divisionless storage size ws ∧
    (∀ out rest steps,
      (shuffle_pcg_loop_traced size storage ws = .ok (out, rest, steps) ∨
        shuffle_pcg_divisionless_loop_traced size storage ws = .ok (out, rest, steps)) →
      steps.length = size - 1 ∧
      steps.map (fun s => s.bound) = (List.range (size - 1)).map (fun k => size - k) ∧
      ∀ s ∈ steps, 2 ≤ s.bound ∧ s.pos = s.bound - 1 ∧ s.nextpos < s.bound ∧
        s.pos < size ∧ s.nextpos < size) ∧
    (∀ e, (shuffle_pcg storage size ws = .error e ∨
        shuffle_pcg_divisionless storage size ws = .error e) → e = Fault.starved) ∧
    (size ≤ 1 →
      shuffle_pcg storage size ws = .ok (storage, ws) ∧
      shuffle_pcg_divisionless storage size ws = .ok (storage, ws)) := by
  refine ⟨shuffle_pcg_loop_traced_erase size storage ws,
    shuffle_pcg_divisionless_loop_traced_erase size storage ws, ?_, ?_, ?_⟩
  · intro out rest steps h
    have hsteps : steps.map (fun s => s.bound) = (List.range (size - 1)).map (fun k => size - k) ∧
        ∀ s ∈ steps, 2 ≤ s.bound ∧ s.bound ≤ size ∧ s.pos = s.bound - 1 ∧
          s.nextpos < s.bound := by
      rcases h with h | h
      · exact shuffle_pcg_loop_traced_steps size storage ws out rest steps hsize h
      · exact shuffle_pcg_divisionless_loop_traced_steps size storage ws out rest steps hsize
          hws h
    obtain ⟨hb, hall⟩ := hsteps
    refine ⟨?_, hb, ?_⟩
    · have := congrArg List.length hb
      simpa using this
    · intro s hs
      obtain ⟨a, b, c, d⟩ := hall s hs
      exact ⟨a, c, d, by omega, by omega⟩
  · intro e h
    rcases h with h | h
    · exact shuffle_pcg_loop_error size storage ws e hsize hlen h
    · exact shuffle_pcg_divisionless_loop_error size storage ws e hsize hlen hws h
  · intro h1
    have hcases : size = 0 ∨ size = 1 := by omega
    rcases hcases with rfl | rfl
    · exact ⟨rfl, rfl⟩
    · exact ⟨rfl, rfl⟩

theorem shuffle_steps_witness :
    (5 ≤ 2 ^ 32 - 1 ∧ 5 ≤ [10, 20, 30, 40, 50].length ∧ Words32 [7, 8, 9, 10, 11, 12]) ∧
    shuffle_pcg_loop_traced 5 [10, 20, 30, 40, 50] [7, 8, 9, 10, 11, 12]
      = .ok ([20, 50, 40, 10, 30], [11, 12],
          [⟨5, 4, 2⟩, ⟨4, 3, 0⟩, ⟨3, 2, 0⟩, ⟨2, 1, 0⟩]) ∧
    (erase_steps (shuffle_pcg_loop_traced 5 [10, 20, 30, 40, 50] [7, 8, 9, 10, 11, 12])
      = shuffle_pcg [10, 20, 30, 40, 50] 5 [7, 8, 9, 10, 11, 12] ∧
    erase_steps (shuffle_pcg_divisionless_loop_traced 5 [10, 20, 30, 40, 50]
        [7, 8, 9, 10, 11, 12])
      = shuffle_pcg_divisionless [10, 20, 30, 40, 50] 5 [7, 8, 9, 10, 11, 12] ∧
    (∀ out rest steps,
      (shuffle_pcg_loop_traced 5 [10, 20, 30, 40, 50] [7, 8, 9, 10, 11, 12]
          = .ok (out, rest, steps) ∨
        shuffle_pcg_divisionless_loop_traced 5 [10, 20, 30, 40, 50] [7, 8, 9, 10, 11, 12]
          = .ok (out, rest, steps)) →
      steps.length = 5 - 1 ∧
      steps.map (fun s => s.bound) = (List.range (5 - 1)).map (fun k => 5 - k) ∧
      ∀ s ∈ steps, 2 ≤ s.bound ∧ s.pos = s.bound - 1 ∧ s.nextpos < s.bound ∧
        s.pos < 5 ∧ s.nextpos < 5) ∧
    (∀ e, (shuffle_pcg [10, 20, 30, 40, 50] 5 [7, 8, 9, 10, 11, 12] = .error e ∨
        shuffle_pcg_divisionless [10, 20, 30, 40, 50] 5 [7, 8, 9, 10, 11, 12] = .error e) →
      e = Fault.starved) ∧
    (5 ≤ 1 →
      shuffle_pcg [10, 20, 30, 40, 50] 5 [7, 8, 9, 10, 11, 12]
        = .ok ([10, 20, 30, 40, 50], [7, 8, 9, 10, 11, 12]) ∧
      shuffle_pcg_divisionless [10, 20, 30, 40, 50] 5 [7, 8, 9, 10, 11, 12]
        = .ok ([10, 20, 30, 40, 50], [7, 8, 9, 10, 11, 12]))) :=
  ⟨⟨by decide, by decide, by decide⟩, rfl,
    shuffle_steps [10, 20, 30, 40, 50] 5 [7, 8, 9, 10, 11, 12] (by decide) (by decide)
      (by decide)⟩

/-! ## Suffix frame of the loop -/

theorem shuffle_pcg_loop_frame {α : Type} (i : Nat) (xs : List α) (ws : List Nat)
    (out : List α) (rest : List Nat) (hi : i ≤ 2 ^ 32 - 1) (hlen : i ≤ xs.length)
    (h : shuffle_pcg_loop i xs ws = .ok (out, rest)) :
    ∀ k, i ≤ k → out[k]? = xs[k]? := by
  obtain ⟨js, hjs, hfy⟩ := shuffle_pcg_loop_draws i xs ws out rest hi h
  intro k hk
  rw [← hfy]
  exact fisher_yates_frame i xs js k hlen hjs hk

theorem shuffle_pcg_divisionless_loop_frame {α : Type} (i : Nat) (xs : List α) (ws : List Nat)
    (out : List α) (rest : List Nat) (hi : i ≤ 2 ^ 32 - 1) (hlen : i ≤ xs.length)
    (hws : Words32 ws) (h : shuffle_pcg_divisionless_loop i xs ws = .ok (out, rest)) :
    ∀ k, i ≤ k → out[k]? = xs[k]? := by
  obtain ⟨js, hjs, hfy⟩ := shuffle_pcg_divisionless_loop_draws i xs ws out rest hi hws h
  intro k hk
  rw [← hfy]
  exact fisher_yates_frame i xs js k hlen hjs hk

/-- C17: suffix frame of the Fisher-Yates loop.  Take the iteration with
counter `c ≥ 2` of `shuffle_pcg` or `shuffle_pcg_divisionless` on the array
`xs`: the sampler returns `j`, the swap of positions `c - 1` and `j` gives
`xs1`, and the remaining iterations turn `xs1` into the final array `out`.
Then `j < c`; the iteration changes only positions `c - 1` and `j` and leaves
every position `≥ c` unchanged; the remaining iterations leave every position
`≥ c - 1` unchanged; so the element put at position `c - 1` (the old `xs[j]`)
is the element at position `c - 1` of the final array. -/
theorem suffix_frame {α : Type} (c : Nat) (xs xs1 out : List α) (ws ws1 rest : List Nat)
    (j : Nat) (hc : 2 ≤ c) (hsize : c ≤ 2 ^ 32 - 1) (hlen : c ≤ xs.length) (hws : Words32 ws)
    (hstep : (pcg32_random_bounded c ws = .ok (j, ws1) ∧
        shuffle_pcg_loop (c - 1) xs1 ws1 = .ok (out, rest)) ∨
      (pcg32_random_bounded_divisionless c ws = .ok (j, ws1) ∧
        shuffle_pcg_divisionless_loop (c - 1) xs1 ws1 = .ok (out, rest)))
    (hswap : swap xs (c - 1) j = .ok xs1) :
    (shuffle_pcg_loop c xs ws = .ok (out, rest) ∨
      shuffle_pcg_divisionless_loop c xs ws = .ok (out, rest)) ∧
    j < c ∧
    (∀ k, k ≠ c - 1 → k ≠ j → xs1[k]? = xs[k]?) ∧
    (∀ k, c ≤ k → xs1[k]? = xs[k]?) ∧
    xs1[c - 1]? = xs[j]? ∧
    (∀ k, c - 1 ≤ k → out[k]? = xs1[k]?) ∧
    out[c - 1]? = xs[j]? ∧
    (∀ k, c ≤ k → out[k]? = xs[k]?) := by
  obtain ⟨i, rfl⟩ : ∃ i, c = i + 2 := ⟨c - 2, by omega⟩
  have e : i + 2 - 1 = i + 1 := rfl
  simp only [e] at hstep hswap ⊢
  have hxs1 := swap_ok_eq xs xs1 _ j hswap
  have hlen1 : xs1.length = xs.length := by rw [hxs1, swap_elems_length]
  have hj : j < i + 2 := by
    rcases hstep with ⟨hs, _⟩ | ⟨hs, _⟩
    · exact pcg32_random_bounded_lt _ _ _ _ (by omega) hsize hs
    · exact (pcg32_random_bounded_divisionless_lt _ _ _ _ (by omega) hsize hws hs).1
  have hget : ∀ k, xs1[k]? = if k = j then xs[i + 1]? else if k = i + 1 then xs[j]? else xs[k]? := by
    intro k
    rw [hxs1]
    exact swap_elems_getElem? xs (i + 1) j k (by omega) (by omega)
  have hout : ∀ k, i + 1 ≤ k → out[k]? = xs1[k]? := by
    rcases hstep with ⟨_, hl⟩ | ⟨hs, hl⟩
    · exact shuffle_pcg_loop_frame (i + 1) xs1 ws1 out rest (by omega) (by omega) hl
    · exact shuffle_pcg_divisionless_loop_frame (i + 1) xs1 ws1 out rest (by omega) (by omega)
        (pcg32_random_bounded_divisionless_lt _ _ _ _ (by omega) hsize hws hs).2 hl
  have hplaced : xs1[i + 1]? = xs[j]? := by
    rw [hget (i + 1)]
    by_cases h : i + 1 = j
    · rw [if_pos h, h]
    · rw [if_neg h, if_pos rfl]
  have hsuffix : ∀ k, i + 2 ≤ k → xs1[k]? = xs[k]? := by
    intro k hk
    rw [hget k, if_neg (by omega), if_neg (by omega)]
  refine ⟨?_, hj, ?_, hsuffix, hplaced, hout, ?_, ?_⟩
  · rcases hstep with ⟨hs, hl⟩ | ⟨hs, hl⟩
    · left
      simp only [shuffle_pcg_loop, hs, e, hswap]
      exact hl
    · right
      simp only [shuffle_pcg_divisionless_loop, hs, e, hswap]
      exact hl
  · intro k hk1 hk2
    rw [hget k, if_neg hk2, if_neg hk1]
  · rw [hout (i + 1) (Nat.le_refl _), hplaced]
  · intro k hk
    rw [hout k (by omega), hsuffix k hk]

theorem suffix_frame_witness :
    (2 ≤ 5 ∧ 5 ≤ 2 ^ 32 - 1 ∧ 5 ≤ [10, 20, 30, 40, 50].length ∧
      Words32 [7, 8, 9, 10, 11, 12] ∧
      (pcg32_random_bounded 5 [7, 8, 9, 10, 11, 12] = .ok (2, [8, 9, 10, 11, 12]) ∧
        shuffle_pcg_loop (5 - 1) [10, 20, 50, 40, 30] [8, 9, 10, 11, 12]
          = .ok ([20, 50, 40, 10, 30], [11, 12])) ∧
      swap [10, 20, 30, 40, 50] (5 - 1) 2 = .ok [10, 20, 50, 40, 30]) ∧
    ((shuffle_pcg_loop 5 [10, 20, 30, 40, 50] [7, 8, 9, 10, 11, 12]
          = .ok ([20, 50, 40, 10, 30], [11, 12]) ∨
        shuffle_pcg_divisionless_loop 5 [10, 20, 30, 40, 50] [7, 8, 9, 10, 11, 12]
          = .ok ([20, 50, 40, 10, 30], [11, 12])) ∧
      2 < 5 ∧
      (∀ k, k ≠ 5 - 1 → k ≠ 2 → [10, 20, 50, 40, 30][k]? = [10, 20, 30, 40, 50][k]?) ∧
      (∀ k, 5 ≤ k → [10, 20, 50, 40, 30][k]? = [10, 20, 30, 40, 50][k]?) ∧
      [10, 20, 50, 40, 30][5 - 1]? = [10, 20, 30, 40, 50][2]? ∧
      (∀ k, 5 - 1 ≤ k → [20, 50, 40, 10, 30][k]? = [10, 20, 50, 40, 30][k]?) ∧
      [20, 50, 40, 10, 30][5 - 1]? = [10, 20, 30, 40, 50][2]? ∧
      (∀ k, 5 ≤ k → [20, 50, 40, 10, 30][k]? = [10, 20, 30, 40, 50][k]?)) :=
  ⟨⟨by decide, by decide, by decide, by decide, ⟨rfl, rfl⟩, rfl⟩,
    suffix_frame 5 [10, 20, 30, 40, 50] [10, 20, 50, 40, 30] [20, 50, 40, 10, 30]
      [7, 8, 9, 10, 11, 12] [8, 9, 10, 11, 12] [11, 12] 2 (by decide) (by decide) (by decide)
      (by decide) (Or.inl ⟨rfl, rfl⟩) rfl⟩

/-! ## How often the correction branch is entered -/

theorem count_correction_fibre (range v : Nat) (h1 : 1 ≤ range) (h2 : range ≤ 2 ^ 32 - 1)
    (hv : v < range) :
    ((Finset.range (2 ^ 32)).filter
      (fun r => (r * range) % 2 ^ 32 < range ∧ r * range / 2 ^ 32 = v)).card = 1 := by
  have hset : (Finset.range (2 ^ 32)).filter
      (fun r => (r * range) % 2 ^ 32 < range ∧ r * range / 2 ^ 32 = v)
      = Finset.Ico ((v * 2 ^ 32 + range - 1) / range) ((v * 2 ^ 32 + range - 1) / range + 1) := by
    ext r
    rw [Finset.mem_filter, Finset.mem_range, Finset.mem_Ico,
      ← multiple_window range 1 (v * 2 ^ 32) r h1, Nat.mul_one]
    constructor
    · rintro ⟨_, hlow, hhigh⟩
      generalize r * range = p at hlow hhigh ⊢
      omega
    · rintro ⟨ha, hb⟩
      have hr : r < 2 ^ 32 := by
        have : r * range < 2 ^ 32 * range := by
          generalize r * range = p at ha hb ⊢
          omega
        exact Nat.lt_of_mul_lt_mul_right this
      refine ⟨hr, ?_⟩
      generalize r * range = p at ha hb ⊢
      omega
  rw [hset, Nat.card_Ico]
  omega

theorem count_correction_words (range : Nat) (h1 : 1 ≤ range) (h2 : range ≤ 2 ^ 32 - 1) :
    ((Finset.range (2 ^ 32)).filter (fun r => (r * range) % 2 ^ 32 < range)).card = range := by
  have hmaps : ∀ r ∈ (Finset.range (2 ^ 32)).filter (fun r => (r * range) % 2 ^ 32 < range),
      r * range / 2 ^ 32 ∈ Finset.range range := by
    intro r hr
    rw [Finset.mem_filter, Finset.mem_range] at hr
    rw [Finset.mem_range]
    have hp : r * range ≤ (2 ^ 32 - 1) * range := Nat.mul_le_mul_right range (by omega)
    generalize r * range = p at hp
    omega
  rw [Finset.card_eq_sum_card_fiberwise hmaps]
  have hfib : ∀ v ∈ Finset.range range,
      (((Finset.range (2 ^ 32)).filter (fun r => (r * range) % 2 ^ 32 < range)).filter
        (fun r => r * range / 2 ^ 32 = v)).card = 1 := by
    intro v hv
    rw [Finset.filter_filter]
    exact count_correction_fibre range v h1 h2 (Finset.mem_range.mp hv)
  rw [Finset.sum_congr rfl hfib, Finset.sum_const, Finset.card_range, smul_eq_mul, Nat.mul_one]

/-- C18: for `1 ≤ range ≤ 2^32 - 1`, exactly `range` of the `2^32` words have a
product `r * range` whose low 32 bits are below `range`, so the correction
branch of `pcg32_random_bounded_divisionless` is entered on the first draw for
exactly `range` words, fewer for a smaller `range`; a first word outside that
set is returned on at once, with its high 32 bits as the value. -/
theorem correction_branch_count (range smaller : Nat) (h1 : 1 ≤ range)
    (h2 : range ≤ 2 ^ 32 - 1) (h3 : 1 ≤ smaller) (h4 : smaller ≤ range) :
    correction_words range = range ∧
    correction_words smaller ≤ correction_words range ∧
    (∀ r rest, ¬ (r * range) % 2 ^ 32 < range →
      pcg32_random_bounded_divisionless range (r :: rest) = .ok (high32 r range, rest)) := by
  have e1 : correction_words range = range := count_correction_words range h1 h2
  have e2 : correction_words smaller = smaller :=
    count_correction_words smaller h3 (by omega)
  refine ⟨e1, by omega, ?_⟩
  intro r rest hr
  have hl : ¬ (r * range) % 2 ^ 64 % 2 ^ 32 < range := by
    rw [low32_of_mod64]
    exact hr
  simp only [pcg32_random_bounded_divisionless, if_neg hl, high32]

theorem correction_branch_count_witness :
    (1 ≤ 6 ∧ 6 ≤ 2 ^ 32 - 1 ∧ 1 ≤ 3 ∧ 3 ≤ 6) ∧
    (correction_words 6 = 6 ∧
    correction_words 3 ≤ correction_words 6 ∧
    (∀ r rest, ¬ (r * 6) % 2 ^ 32 < 6 →
      pcg32_random_bounded_divisionless 6 (r :: rest) = .ok (high32 r 6, rest))) :=
  ⟨⟨by decide, by decide, by decide, by decide⟩,
    correction_branch_count 6 3 (by decide) (by decide) (by decide) (by decide)⟩

/-! ## Acceptance probability for every valid bound -/

/-- C19: for every `bound` with `1 ≤ bound ≤ 2^32 - 1`, also above `2^31`, each
sampler accepts exactly `2^32 - (2^32 mod bound) = bound * (2^32 / bound)` of
the `2^32` words, which is more than `2^31`: a draw is accepted with
probability greater than `1/2`. -/
theorem acceptance_above_half (bound : Nat) (h1 : 1 ≤ bound) (h2 : bound ≤ 2 ^ 32 - 1) :
    accepted_bounded bound = 2 ^ 32 - 2 ^ 32 % bound ∧
    accepted_divisionless bound = 2 ^ 32 - 2 ^ 32 % bound ∧
    2 ^ 32 - 2 ^ 32 % bound = bound * (2 ^ 32 / bound) ∧
    accepted_bounded bound > 2 ^ 31 ∧
    accepted_divisionless bound > 2 ^ 31 := by
  have e1 : accepted_bounded bound = 2 ^ 32 - 2 ^ 32 % bound := by
    unfold accepted_bounded
    rw [threshold_bounded_eq bound h1 h2]
    exact count_bounded_accepted bound
  have e2 : accepted_divisionless bound = 2 ^ 32 - 2 ^ 32 % bound := by
    unfold accepted_divisionless
    rw [threshold_divisionless_eq bound h1 h2]
    exact count_divisionless_accepted bound h1
  have hsplit : 2 ^ 32 % bound + bound * (2 ^ 32 / bound) = 2 ^ 32 := Nat.mod_add_div _ _
  have hT : 2 ^ 32 % bound < bound := Nat.mod_lt _ (by omega)
  have hq : 1 ≤ 2 ^ 32 / bound := (Nat.one_le_div_iff (by omega)).mpr (by omega)
  have hle : bound ≤ bound * (2 ^ 32 / bound) := Nat.le_mul_of_pos_right bound hq
  rw [e1, e2]
  generalize 2 ^ 32 / bound = q at hsplit hle
  generalize 2 ^ 32 % bound = T at hsplit hT
  generalize bound * q = Q at hsplit hle
  refine ⟨rfl, rfl, by omega, by omega, by omega⟩

theorem acceptance_above_half_witness :
    (1 ≤ 4294967295 ∧ 4294967295 ≤ 2 ^ 32 - 1) ∧
    (accepted_bounded 4294967295 = 2 ^ 32 - 2 ^ 32 % 4294967295 ∧
    accepted_divisionless 4294967295 = 2 ^ 32 - 2 ^ 32 % 4294967295 ∧
    2 ^ 32 - 2 ^ 32 % 4294967295 = 4294967295 * (2 ^ 32 / 4294967295) ∧
    accepted_bounded 4294967295 > 2 ^ 31 ∧
    accepted_divisionless 4294967295 > 2 ^ 31) :=
  ⟨⟨by decide, by decide⟩, acceptance_above_half 4294967295 (by decide) (by decide)⟩

/-! ## The shuffles do not look at the elements -/

theorem swap_elems_map {α β : Type} (f : α → β) (xs : List α) (a b : Nat) :
    swap_elems (xs.map f) a b = (swap_elems xs a b).map f := by
  unfold swap_elems
  rw [List.getElem?_map, List.getElem?_map]
  cases xs[a]? with
  | none => rfl
  | some x =>
    cases xs[b]? with
    | none => rfl
    | some y => simp [List.map_set]

theorem swap_map {α β : Type} (f : α → β) (xs : List α) (a b : Nat) :
    swap (xs.map f) a b = Except.map (List.map f) (swap xs a b) := by
  unfold swap
  rw [List.length_map, swap_elems_map]
  split <;> rfl

theorem shuffle_pcg_loop_map {α β : Type} (f : α → β) (i : Nat) :
    ∀ (xs : List α) (ws : List Nat),
      shuffle_pcg_loop i (xs.map f) ws
        = Except.map (fun p => (p.1.map f, p.2)) (shuffle_pcg_loop i xs ws) := by
  induction i with
  | zero => intro xs ws; rfl
  | succ i ih =>
    intro xs ws
    cases i with
    | zero => rfl
    | succ i =>
      simp only [shuffle_pcg_loop, swap_map]
      cases pcg32_random_bounded (i + 2) ws with
      | error e => rfl
      | ok res =>
        obtain ⟨nextpos, ws1⟩ := res
        simp only []
        cases swap xs (i + 2 - 1) nextpos with
        | error e => rfl
        | ok storage1 => exact ih storage1 ws1

theorem shuffle_pcg_divisionless_loop_map {α β : Type} (f : α → β) (i : Nat) :
    ∀ (xs : List α) (ws : List Nat),
      shuffle_pcg_divisionless_loop i (xs.map f) ws
        = Except.map (fun p => (p.1.map f, p.2)) (shuffle_pcg_divisionless_loop i xs ws) := by
  induction i with
  | zero => intro xs ws; rfl
  | succ i ih =>
    intro xs ws
    cases i with
    | zero => rfl
    | succ i =>
      simp only [shuffle_pcg_divisionless_loop, swap_map]
      cases pcg32_random_bounded_divisionless (i + 2) ws with
      | error e => rfl
      | ok res =>
        obtain ⟨nextpos, ws1⟩ := res
        simp only []
        cases swap xs (i + 2 - 1) nextpos with
        | error e => rfl
        | ok storage1 => exact ih storage1 ws1

/-- C20: the rearrangement depends only on the size and the words drawn, never
on the element values.  For every function `f` on elements, every array `xs`,
every size and every word list, shuffling `xs.map f` gives the result of
shuffling `xs` with its array mapped through `f` and the same words left (and
the same failure when shuffling `xs` does not return), for `shuffle_pcg` and
for `shuffle_pcg_divisionless`. -/
theorem shuffles_commute_with_map {α β : Type} (f : α → β) (xs : List α) (size : Nat)
    (ws : List Nat) :
    shuffle_pcg (xs.map f) size ws
      = Except.map (fun p => (p.1.map f, p.2)) (shuffle_pcg xs size ws) ∧
    shuffle_pcg_divisionless (xs.map f) size ws
      = Except.map (fun p => (p.1.map f, p.2)) (shuffle_pcg_divisionless xs size ws) :=
  ⟨shuffle_pcg_loop_map f size xs ws, shuffle_pcg_divisionless_loop_map f size xs ws⟩

/-! ## The shuffles compute the Fisher-Yates loop of their own sampler results -/

theorem shuffle_pcg_loop_traced_results {α : Type} (i : Nat) :
    ∀ (xs : List α) (ws : List Nat) (out : List α) (rest : List Nat) (steps : List SwapStep),
      i ≤ 2 ^ 32 - 1 → shuffle_pcg_loop_traced i xs ws = .ok (out, rest, steps) →
      draws_in_range i (steps.map (fun s => s.nextpos)) ∧
      fisher_yates i xs (steps.map (fun s => s.nextpos)) = out := by
  induction i with
  | zero =>
    intro xs ws out rest steps _ h
    simp only [shuffle_pcg_loop_traced, Except.ok.injEq, Prod.mk.injEq] at h
    rw [← h.2.2, ← h.1]
    simp [draws_in_range, fisher_yates]
  | succ i ih =>
    intro xs ws out rest steps hi h
    cases i with
    | zero =>
      simp only [shuffle_pcg_loop_traced, Except.ok.injEq, Prod.mk.injEq] at h
      rw [← h.2.2, ← h.1]
      simp [draws_in_range, fisher_yates]
    | succ i =>
      simp only [shuffle_pcg_loop_traced] at h
      split at h
      · cases h
      · next hsam =>
        split at h
        · cases h
        · next hsw =>
          split at h
          · cases h
          · next hrec =>
            simp only [Except.ok.injEq, Prod.mk.injEq] at h
            obtain ⟨hout, _, hsteps⟩ := h
            have hlt := pcg32_random_bounded_lt _ _ _ _ (by omega) hi hsam
            obtain ⟨hjs, hfy⟩ := ih _ _ _ _ _ (by omega) hrec
            rw [swap_ok_eq _ _ _ _ hsw] at hfy
            rw [← hsteps, ← hout]
            exact ⟨⟨hlt, hjs⟩, hfy⟩

theorem shuffle_pcg_divisionless_loop_traced_results {α : Type} (i : Nat) :
    ∀ (xs : List α) (ws : List Nat) (out : List α) (rest : List Nat) (steps : List SwapStep),
      i ≤ 2 ^ 32 - 1 → Words32 ws →
      shuffle_pcg_divisionless_loop_traced i xs ws = .ok (out, rest, steps) →
      draws_in_range i (steps.map (fun s => s.nextpos)) ∧
      fisher_yates i xs (steps.map (fun s => s.nextpos)) = out := by
  induction i with
  | zero =>
    intro xs ws out rest steps _ _ h
    simp only [shuffle_pcg_divisionless_loop_traced, Except.ok.injEq, Prod.mk.injEq] at h
    rw [← h.2.2, ← h.1]
    simp [draws_in_range, fisher_yates]
  | succ i ih =>
    intro xs ws out rest steps hi hws h
    cases i with
    | zero =>
      simp only [shuffle_pcg_divisionless_loop_traced, Except.ok.injEq, Prod.mk.injEq] at h
      rw [← h.2.2, ← h.1]
      simp [draws_in_range, fisher_yates]
    | succ i =>
      simp only [shuffle_pcg_divisionless_loop_traced] at h
      split at h
      · cases h
      · next hsam =>
        split at h
        · cases h
        · next hsw =>
          split at h
          · cases h
          · next hrec =>
            simp only [Except.ok.injEq, Prod.mk.injEq] at h
            obtain ⟨hout, _, hsteps⟩ := h
            have hlt := pcg32_random_bounded_divisionless_lt _ _ _ _ (by omega) hi hws hsam
            obtain ⟨hjs, hfy⟩ := ih _ _ _ _ _ (by omega) hlt.2 hrec
            rw [swap_ok_eq _ _ _ _ hsw] at hfy
            rw [← hsteps, ← hout]
            exact ⟨⟨hlt.1, hjs⟩, hfy⟩

theorem erase_steps_ok {α : Type} (t : Except Fault (List α × List Nat × List SwapStep))
    (out : List α) (rest : List Nat) (h : erase_steps t = .ok (out, rest)) :
    ∃ steps, t = .ok (out, rest, steps) := by
  cases t with
  | error e => simp [erase_steps] at h
  | ok res =>
    obtain ⟨o, r, steps⟩ := res
    simp only [erase_steps, Except.ok.injEq, Prod.mk.injEq] at h
    exact ⟨steps, by rw [h.1, h.2]⟩

theorem exists_word_bounded (bound j : Nat) (h1 : 1 ≤ bound) (h2 : bound ≤ 2 ^ 32 - 1)
    (hj : j < bound) :
    ∃ r, r < 2 ^ 32 ∧ ∀ rest, pcg32_random_bounded bound (r :: rest) = .ok (j, rest) := by
  have hc := count_bounded_fibre bound j h1 hj
  have hq : 0 < 2 ^ 32 / bound := Nat.div_pos (by omega) (by omega)
  have hpos := Nat.lt_of_lt_of_eq hq hc.symm
  obtain ⟨r, hr⟩ := Finset.card_pos.mp hpos
  rw [Finset.mem_filter, Finset.mem_range] at hr
  refine ⟨r, hr.1, ?_⟩
  intro rest
  have h := pcg32_random_bounded_first bound [] r rest h1 h2 (by simp) hr.2.1
  rw [hr.2.2] at h
  exact h

theorem exists_word_divisionless (range j : Nat) (h1 : 1 ≤ range) (h2 : range ≤ 2 ^ 32 - 1)
    (hj : j < range) :
    ∃ r, r < 2 ^ 32 ∧
      ∀ rest, pcg32_random_bounded_divisionless range (r :: rest) = .ok (j, rest) := by
  have hc := count_divisionless_fibre range j h1 hj
  have hq : 0 < 2 ^ 32 / range := Nat.div_pos (by omega) (by omega)
  have hpos := Nat.lt_of_lt_of_eq hq hc.symm
  obtain ⟨r, hr⟩ := Finset.card_pos.mp hpos
  rw [Finset.mem_filter, Finset.mem_range] at hr
  refine ⟨r, hr.1, ?_⟩
  intro rest
  have h := pcg32_random_bounded_divisionless_first range [] r rest h1 h2 (by simp) hr.2.1
  rw [(high32_eq r range hr.1 h1 (by omega)).2.1, hr.2.2] at h
  exact h

theorem shuffle_pcg_loop_traced_realise {α : Type} (i : Nat) :
    ∀ (xs : List α) (js : List Nat), i ≤ 2 ^ 32 - 1 → i ≤ xs.length → draws_in_range i js →
      ∃ ws, Words32 ws ∧ ∀ rest, ∃ steps,
        shuffle_pcg_loop_traced i xs (ws ++ rest) = .ok (fisher_yates i xs js, rest, steps) ∧
        steps.map (fun s => s.nextpos) = js := by
  induction i with
  | zero =>
    intro xs js _ _ hjs
    simp only [draws_in_range] at hjs
    subst hjs
    exact ⟨[], by simp [Words32], fun rest => ⟨[], rfl, rfl⟩⟩
  | succ i ih =>
    intro xs js hi hlen hjs
    cases i with
    | zero =>
      simp only [draws_in_range] at hjs
      subst hjs
      exact ⟨[], by simp [Words32], fun rest => ⟨[], rfl, rfl⟩⟩
    | succ i =>
      cases js with
      | nil => simp [draws_in_range] at hjs
      | cons j js =>
        simp only [draws_in_range] at hjs
        obtain ⟨r, hr, hsam⟩ := exists_word_bounded (i + 2) j (by omega) hi hjs.1
        obtain ⟨ws1, hws1, hrec⟩ := ih (swap_elems xs (i + 1) j) js (by omega)
          (by rw [swap_elems_length]; omega) hjs.2
        refine ⟨r :: ws1, ?_, ?_⟩
        · intro w hw
          rcases List.mem_cons.mp hw with rfl | hw
          · exact hr
          · exact hws1 w hw
        · intro rest
          obtain ⟨steps, hst, hmap⟩ := hrec rest
          refine ⟨⟨i + 2, i + 2 - 1, j⟩ :: steps, ?_, by simp [hmap]⟩
          have hsw : swap xs (i + 2 - 1) j = .ok (swap_elems xs (i + 1) j) :=
            swap_in_bounds xs (i + 1) j (by omega) (by omega)
          simp only [List.cons_append, shuffle_pcg_loop_traced, hsam (ws1 ++ rest), hsw, hst,
            fisher_yates]
          rfl

theorem shuffle_pcg_divisionless_loop_traced_realise {α : Type} (i : Nat) :
    ∀ (xs : List α) (js : List Nat), i ≤ 2 ^ 32 - 1 → i ≤ xs.length → draws_in_range i js →
      ∃ ws, Words32 ws ∧ ∀ rest, ∃ steps,
        shuffle_pcg_divisionless_loop_traced i xs (ws ++ rest)
          = .ok (fisher_yates i xs js, rest, steps) ∧
        steps.map (fun s => s.nextpos) = js := by
  induction i with
  | zero =>
    intro xs js _ _ hjs
    simp only [draws_in_range] at hjs
    subst hjs
    exact ⟨[], by simp [Words32], fun rest => ⟨[], rfl, rfl⟩⟩
  | succ i ih =>
    intro xs js hi hlen hjs
    cases i with
    | zero =>
      simp only [draws_in_range] at hjs
      subst hjs
      exact ⟨[], by simp [Words32], fun rest => ⟨[], rfl, rfl⟩⟩
    | succ i =>
      cases js with
      | nil => simp [draws_in_range] at hjs
      | cons j js =>
        simp only [draws_in_range] at hjs
        obtain ⟨r, hr, hsam⟩ := exists_word_divisionless (i + 2) j (by omega) hi hjs.1
        obtain ⟨ws1, hws1, hrec⟩ := ih (swap_elems xs (i + 1) j) js (by omega)
          (by rw [swap_elems_length]; omega) hjs.2
        refine ⟨r :: ws1, ?_, ?_⟩
        · intro w hw
          rcases List.mem_cons.mp hw with rfl | hw
          · exact hr
          · exact hws1 w hw
        · intro rest
          obtain ⟨steps, hst, hmap⟩ := hrec rest
          refine ⟨⟨i + 2, i + 2 - 1, j⟩ :: steps, ?_, by simp [hmap]⟩
          have hsw : swap xs (i + 2 - 1) j = .ok (swap_elems xs (i + 1) j) :=
            swap_in_bounds xs (i + 1) j (by omega) (by omega)
          simp only [List.cons_append, shuffle_pcg_divisionless_loop_traced,
            hsam (ws1 ++ rest), hsw, hst, fisher_yates]
          rfl

/-- C6: for an array `storage` of `n` pairwise distinct elements (`n` a
`uint32_t`), every returning run of `shuffle_pcg` and of
`shuffle_pcg_divisionless` ends with the arrangement that the Fisher-Yates loop
computes from the tuple `(j_n, ..., j_2)` of the values its own sampler calls
returned (the `nextpos` of its recorded steps), each `j_i < i`; every such
tuple is the tuple of sampler results of some run on 32-bit words; and the map
from these tuples to arrangements is a bijection onto the arrangements of
`storage`, of which there are `n!`: each arrangement arises from exactly one
tuple. -/
theorem fisher_yates_bijection {α : Type} (storage : List α) (hnd : storage.Nodup)
    (hlen : storage.length ≤ 2 ^ 32 - 1) :
    (∀ ws out rest, shuffle_pcg storage storage.length ws = .ok (out, rest) →
      ∃ steps, shuffle_pcg_loop_traced storage.length storage ws = .ok (out, rest, steps) ∧
        draws_in_range storage.length (steps.map (fun s => s.nextpos)) ∧
        out = fisher_yates storage.length storage (steps.map (fun s => s.nextpos))) ∧
    (∀ ws out rest, Words32 ws →
      shuffle_pcg_divisionless storage storage.length ws = .ok (out, rest) →
      ∃ steps,
        shuffle_pcg_divisionless_loop_traced storage.length storage ws
          = .ok (out, rest, steps) ∧
        draws_in_range storage.length (steps.map (fun s => s.nextpos)) ∧
        out = fisher_yates storage.length storage (steps.map (fun s => s.nextpos))) ∧
    (∀ js, draws_in_range storage.length js →
      ∃ ws steps, Words32 ws ∧
        shuffle_pcg_loop_traced storage.length storage ws
          = .ok (fisher_yates storage.length storage js, [], steps) ∧
        steps.map (fun s => s.nextpos) = js ∧
        shuffle_pcg storage storage.length ws
          = .ok (fisher_yates storage.length storage js, [])) ∧
    (∀ js, draws_in_range storage.length js →
      ∃ ws steps, Words32 ws ∧
        shuffle_pcg_divisionless_loop_traced storage.length storage ws
          = .ok (fisher_yates storage.length storage js, [], steps) ∧
        steps.map (fun s => s.nextpos) = js ∧
        shuffle_pcg_divisionless storage storage.length ws
          = .ok (fisher_yates storage.length storage js, [])) ∧
    Set.BijOn (fisher_yates storage.length storage)
      {js | draws_in_range storage.length js} {l | l.Perm storage} ∧
    (∀ l, l.Perm storage →
      ∃! js, draws_in_range storage.length js ∧ fisher_yates storage.length storage js = l) ∧
    (∀ l, l ∈ storage.permutations ↔ l.Perm storage) ∧
    storage.permutations.Nodup ∧
    storage.permutations.length = storage.length.factorial := by
  have hsurj : ∀ l, l.Perm storage →
      ∃ js, draws_in_range storage.length js ∧ fisher_yates storage.length storage js = l := by
    intro l hl
    refine fisher_yates_surjective storage.length storage l hnd (Nat.le_refl _) hl ?_
    intro k hk
    rw [List.getElem?_eq_none (by rw [hl.length_eq]; exact hk), List.getElem?_eq_none hk]
  have hinj : ∀ js js1, draws_in_range storage.length js → draws_in_range storage.length js1 →
      fisher_yates storage.length storage js = fisher_yates storage.length storage js1 →
      js = js1 := fun js js1 h h1 he =>
    fisher_yates_injective storage.length storage js js1 hnd (Nat.le_refl _) h h1 he
  refine ⟨?_, ?_, ?_, ?_, ⟨?_, ?_, ?_⟩, ?_, ?_, ?_, ?_⟩
  · intro ws out rest h
    have he := shuffle_pcg_loop_traced_erase storage.length storage ws
    unfold shuffle_pcg at h
    rw [h] at he
    obtain ⟨steps, hst⟩ := erase_steps_ok _ out rest he
    obtain ⟨hjs, hfy⟩ :=
      shuffle_pcg_loop_traced_results storage.length storage ws out rest steps hlen hst
    exact ⟨steps, hst, hjs, hfy.symm⟩
  · intro ws out rest hws h
    have he := shuffle_pcg_divisionless_loop_traced_erase storage.length storage ws
    unfold shuffle_pcg_divisionless at h
    rw [h] at he
    obtain ⟨steps, hst⟩ := erase_steps_ok _ out rest he
    obtain ⟨hjs, hfy⟩ := shuffle_pcg_divisionless_loop_traced_results storage.length storage
      ws out rest steps hlen hws hst
    exact ⟨steps, hst, hjs, hfy.symm⟩
  · intro js hjs
    obtain ⟨ws, hws, hrun⟩ :=
      shuffle_pcg_loop_traced_realise storage.length storage js hlen (Nat.le_refl _) hjs
    obtain ⟨steps, hst, hmap⟩ := hrun []
    rw [List.append_nil] at hst
    refine ⟨ws, steps, hws, hst, hmap, ?_⟩
    have he := shuffle_pcg_loop_traced_erase storage.length storage ws
    rw [hst] at he
    exact he.symm
  · intro js hjs
    obtain ⟨ws, hws, hrun⟩ := shuffle_pcg_divisionless_loop_traced_realise storage.length
      storage js hlen (Nat.le_refl _) hjs
    obtain ⟨steps, hst, hmap⟩ := hrun []
    rw [List.append_nil] at hst
    refine ⟨ws, steps, hws, hst, hmap, ?_⟩
    have he := shuffle_pcg_divisionless_loop_traced_erase storage.length storage ws
    rw [hst] at he
    exact he.symm
  · intro js _
    exact fisher_yates_perm storage.length storage js
  · intro js h js1 h1 he
    exact hinj js js1 h h1 he
  · intro l hl
    obtain ⟨js, hjs, hfy⟩ := hsurj l hl
    exact ⟨js, hjs, hfy⟩
  · intro l hl
    obtain ⟨js, hjs, hfy⟩ := hsurj l hl
    refine ⟨js, ⟨hjs, hfy⟩, ?_⟩
    rintro js1 ⟨hjs1, hfy1⟩
    exact hinj js1 js hjs1 hjs (hfy1.trans hfy.symm)
  · intro l
    exact List.mem_permutations
  · exact List.nodup_permutations storage hnd
  · exact List.length_permutations storage

theorem fisher_yates_bijection_witness :
    ([10, 20, 30].Nodup ∧ [10, 20, 30].length ≤ 2 ^ 32 - 1) ∧
    (shuffle_pcg [10, 20, 30] 3 [0, 7, 9] = .ok ([10, 30, 20], []) ∧
      shuffle_pcg_loop_traced 3 [10, 20, 30] [0, 7, 9]
        = .ok ([10, 30, 20], [], [⟨3, 2, 1⟩, ⟨2, 1, 1⟩]) ∧
      fisher_yates 3 [10, 20, 30] [1, 1] = [10, 30, 20]) ∧
    ((∀ ws out rest, shuffle_pcg [10, 20, 30] [10, 20, 30].length ws = .ok (out, rest) →
      ∃ steps,
        shuffle_pcg_loop_traced [10, 20, 30].length [10, 20, 30] ws = .ok (out, rest, steps) ∧
        draws_in_range [10, 20, 30].length (steps.map (fun s => s.nextpos)) ∧
        out = fisher_yates [10, 20, 30].length [10, 20, 30] (steps.map (fun s => s.nextpos))) ∧
    (∀ ws out rest, Words32 ws →
      shuffle_pcg_divisionless [10, 20, 30] [10, 20, 30].length ws = .ok (out, rest) →
      ∃ steps,
        shuffle_pcg_divisionless_loop_traced [10, 20, 30].length [10, 20, 30] ws
          = .ok (out, rest, steps) ∧
        draws_in_range [10, 20, 30].length (steps.map (fun s => s.nextpos)) ∧
        out = fisher_yates [10, 20, 30].length [10, 20, 30] (steps.map (fun s => s.nextpos))) ∧
    (∀ js, draws_in_range [10, 20, 30].length js →
      ∃ ws steps, Words32 ws ∧
        shuffle_pcg_loop_traced [10, 20, 30].length [10, 20, 30] ws
          = .ok (fisher_yates [10, 20, 30].length [10, 20, 30] js, [], steps) ∧
        steps.map (fun s => s.nextpos) = js ∧
        shuffle_pcg [10, 20, 30] [10, 20, 30].length ws
          = .ok (fisher_yates [10, 20, 30].length [10, 20, 30] js, [])) ∧
    (∀ js, draws_in_range [10, 20, 30].length js →
      ∃ ws steps, Words32 ws ∧
        shuffle_pcg_divisionless_loop_traced [10, 20, 30].length [10, 20, 30] ws
          = .ok (fisher_yates [10, 20, 30].length [10, 20, 30] js, [], steps) ∧
        steps.map (fun s => s.nextpos) = js ∧
        shuffle_pcg_divisionless [10, 20, 30] [10, 20, 30].length ws
          = .ok (fisher_yates [10, 20, 30].length [10, 20, 30] js, [])) ∧
    Set.BijOn (fisher_yates [10, 20, 30].length [10, 20, 30])
      {js | draws_in_range [10, 20, 30].length js} {l | l.Perm [10, 20, 30]} ∧
    (∀ l, l.Perm [10, 20, 30] →
      ∃! js, draws_in_range [10, 20, 30].length js ∧
        fisher_yates [10, 20, 30].length [10, 20, 30] js = l) ∧
    (∀ l, l ∈ [10, 20, 30].permutations ↔ l.Perm [10, 20, 30]) ∧
    [10, 20, 30].permutations.Nodup ∧
    [10, 20, 30].permutations.length = [10, 20, 30].length.factorial) :=
  ⟨⟨by decide, by decide⟩, ⟨rfl, rfl, rfl⟩,
    fisher_yates_bijection [10, 20, 30] (by decide) (by decide)⟩

end Shuffle
